import Mathlib

/-!
Verification development for the optuna storage layer
(files src/optuna/storages/_cached_storage.py, _in_memory.py, _redis.py).

All Python dictionaries are modelled as insertion-ordered association
lists (exactly the semantics of Python dicts: writing to an existing key
overwrites in place, writing to a new key appends).  Machine floats
appearing in the sources (objective values, timestamps) are modelled as
integers: the algorithms only ever copy and compare them.  Fallible
operations return Except values mirroring the Python exceptions.
-/

namespace Optuna

/-- Trial lifecycle states, from optuna.trial.TrialState as used by the
three storage files. -/
inductive TrialState where
  | waiting
  | running
  | complete
  | fail
  | pruned
deriving DecidableEq

/-- TrialState.is_finished: COMPLETE, FAIL and PRUNED are finished. -/
def TrialState.isFinished : TrialState → Bool
  | .complete => true
  | .fail => true
  | .pruned => true
  | _ => false

/-- Study directions, from optuna.study StudyDirection. -/
inductive StudyDirection where
  | notSet
  | minimize
  | maximize
deriving DecidableEq

/-- A parameter distribution schema.  Modelled from the spec: a schema
descriptor (family plus bounds or choices); the distribution classes are
not part of the sources, so a schema is modelled as an opaque code and
two schemas are compatible exactly when they are equal. -/
abbrev Dist := Nat

/-- Errors raised by the storage operations. -/
inductive Err where
  | notUpdatable
  | keyError
  | distConflict
  | assertionFailed
  | valueError
deriving DecidableEq

deriving instance DecidableEq for Except

/-- Python dict assignment d[k] = v on an insertion-ordered association
list: overwrite in place if the key is present, append otherwise. -/
def updList {K V : Type} [DecidableEq K] (k : K) (v : V) : List (K × V) → List (K × V)
  | [] => [(k, v)]
  | (k₀, v₀) :: rest => if k = k₀ then (k, v) :: rest else (k₀, v₀) :: updList k v rest

/-- Python dict lookup d.get(k): value at the first matching key. -/
def lookupList {K V : Type} [DecidableEq K] (k : K) : List (K × V) → Option V
  | [] => none
  | (k₀, v) :: rest => if k = k₀ then some v else lookupList k rest

/-- Python dict.update(other): fold the second dict into the first in
insertion order. -/
def mergeList {K V : Type} [DecidableEq K] (base upd : List (K × V)) : List (K × V) :=
  upd.foldl (fun acc kv => updList kv.1 kv.2 acc) base

theorem lookupList_updList_self {K V : Type} [DecidableEq K] (k : K) (v : V)
    (l : List (K × V)) : lookupList k (updList k v l) = some v := by
  induction l with
  | nil => simp [updList, lookupList]
  | cons hd tl ih =>
    obtain ⟨k₀, v₀⟩ := hd
    by_cases h : k = k₀ <;> simp [updList, lookupList, h, ih]

theorem lookupList_updList_ne {K V : Type} [DecidableEq K] {k j : K} (v : V)
    (l : List (K × V)) (h : j ≠ k) : lookupList j (updList k v l) = lookupList j l := by
  induction l with
  | nil => simp [updList, lookupList, h]
  | cons hd tl ih =>
    obtain ⟨k₀, v₀⟩ := hd
    by_cases hk : k = k₀
    · subst hk
      simp [updList, lookupList, h]
    · by_cases hj : j = k₀ <;> simp [updList, lookupList, hk, hj, ih]

theorem updList_lookup_eq {K V : Type} [DecidableEq K] {k : K} {v : V}
    {l : List (K × V)} (h : lookupList k l = some v) : updList k v l = l := by
  induction l with
  | nil => simp [lookupList] at h
  | cons hd tl ih =>
    obtain ⟨k₀, v₀⟩ := hd
    by_cases hk : k = k₀
    · subst hk
      simp [lookupList] at h
      simp [updList, h]
    · simp [lookupList, hk] at h
      simp [updList, hk, ih h]

theorem mem_of_lookupList {K V : Type} [DecidableEq K] {k : K} {v : V} :
    ∀ {l : List (K × V)}, lookupList k l = some v → (k, v) ∈ l := by
  intro l
  induction l with
  | nil => intro h; simp [lookupList] at h
  | cons hd tl ih =>
    intro h
    obtain ⟨k₀, v₀⟩ := hd
    by_cases hk : k = k₀
    · subst hk
      simp [lookupList] at h
      simp [h]
    · simp [lookupList, hk] at h
      simp [ih h]

theorem lookupList_of_mem_nodup {K V : Type} [DecidableEq K] {k : K} {v : V}
    {l : List (K × V)} (hnd : (l.map Prod.fst).Nodup) (hm : (k, v) ∈ l) :
    lookupList k l = some v := by
  induction l with
  | nil => simp at hm
  | cons hd tl ih =>
    obtain ⟨k₀, v₀⟩ := hd
    simp only [List.map_cons, List.nodup_cons] at hnd
    rcases List.mem_cons.mp hm with h | h
    · obtain ⟨h1, h2⟩ := Prod.mk.injEq _ _ _ _ ▸ h
      simp [lookupList, h1.symm, h2]
    · have hk : k ≠ k₀ := by
        intro hkk
        subst hkk
        exact hnd.1 (List.mem_map.mpr ⟨(k, v), h, rfl⟩)
      simp [lookupList, hk, ih hnd.2 h]

/-- A frozen trial record, from optuna.trial.FrozenTrial as manipulated by
the three storage files.  Parameter values are stored in external
representation; attribute and objective values are modelled as integers. -/
structure Trial where
  number : Nat
  state : TrialState
  values : Option (List Int)
  intermediateValues : List (Int × Int)
  params : List (String × Int)
  distributions : List (String × Dist)
  userAttrs : List (String × Int)
  systemAttrs : List (String × Int)
  datetimeStart : Option Int
  datetimeComplete : Option Int
deriving DecidableEq

/-- FrozenTrial.value: the first objective value if values are present. -/
def Trial.value (t : Trial) : Option Int :=
  match t.values with
  | some (v :: _) => some v
  | _ => none

/-- BaseStorage.check_trial_is_updatable.  Modelled from the spec: any
mutation attempted on a trial already in a finished state fails with a
not-updatable error (the base class is not part of the sources; the
identical check appears verbatim in _CachedStorage._check_trial_is_updatable). -/
def checkUpdatable (st : TrialState) : Except Err Unit :=
  if st.isFinished then .error .notUpdatable else .ok ()

theorem checkUpdatable_ok {st : TrialState} (h : st.isFinished = false) :
    checkUpdatable st = .ok () := by
  simp [checkUpdatable, h]

theorem checkUpdatable_error {st : TrialState} (h : st.isFinished = true) :
    checkUpdatable st = .error .notUpdatable := by
  simp [checkUpdatable, h]

/-!
## In-memory backend (src/optuna/storages/_in_memory.py)

The model is specialised to a single study, so a trial id coincides with
its number and indexes the trials list of the study.
-/

/-- The per-study data of InMemoryStorage._StudyInfo (single study). -/
structure MemStore where
  trials : List Trial
  paramDistribution : List (String × Dist)
  directions : List StudyDirection
  bestTrialId : Option Nat
deriving DecidableEq

/-- InMemoryStorage._get_trial (raises KeyError for an unknown id). -/
def memGetTrial (s : MemStore) (id : Nat) : Except Err Trial :=
  match s.trials[id]? with
  | some t => .ok t
  | none => .error .keyError

/-- InMemoryStorage._set_trial. -/
def memSetTrialRec (s : MemStore) (id : Nat) (t : Trial) : MemStore :=
  { s with trials := s.trials.set id t }

/-- InMemoryStorage._update_cache: incremental best-trial maintenance on a
transition into COMPLETE. -/
def memUpdateCache (s : MemStore) (id : Nat) : MemStore :=
  match s.trials[id]? with
  | none => s
  | some trial =>
    if trial.state ≠ .complete then s
    else
      match s.bestTrialId with
      | none => { s with bestTrialId := some id }
      | some bestId =>
        if s.directions.length > 1 then s
        else
          let direction := s.directions.headD .notSet
          match s.trials[bestId]? with
          | none => s
          | some best =>
            match best.value with
            | none => { s with bestTrialId := some id }
            | some bestValue =>
              match trial.value with
              | none => s
              | some newValue =>
                if direction = .maximize then
                  if bestValue < newValue then { s with bestTrialId := some id } else s
                else
                  if bestValue > newValue then { s with bestTrialId := some id } else s

/-- InMemoryStorage.set_trial_state. -/
def memSetTrialState (s : MemStore) (id : Nat) (state : TrialState) (now : Int) :
    Except Err (Bool × MemStore) := do
  let t ← memGetTrial s id
  checkUpdatable t.state
  checkUpdatable t.state
  if state = .running ∧ t.state ≠ .waiting then
    return (false, s)
  let t := { t with state := state }
  let t := if state = .running then { t with datetimeStart := some now } else t
  if state.isFinished then
    let t := { t with datetimeComplete := some now }
    let s := memSetTrialRec s id t
    return (true, memUpdateCache s id)
  else
    return (true, memSetTrialRec s id t)

/-- distributions.check_distribution_compatibility.  Modelled from the
spec: compatibility means same family and compatible bounds or choices;
with schemas modelled as opaque codes this is equality, and an
incompatible pair is a hard error. -/
def checkDistCompat (a b : Dist) : Except Err Unit :=
  if a = b then .ok () else .error .distConflict

/-- Modelled from the spec: the external representation of an internal
parameter value under a distribution (BaseDistribution.to_external_repr is
not part of the sources); the conversion is modelled as the identity. -/
def toExternalRepr (_d : Dist) (v : Int) : Int := v

/-- InMemoryStorage.set_trial_param. -/
def memSetTrialParam (s : MemStore) (id : Nat) (name : String) (v : Int) (d : Dist) :
    Except Err MemStore := do
  let t ← memGetTrial s id
  checkUpdatable t.state
  match lookupList name s.paramDistribution with
  | some d₀ => checkDistCompat d₀ d
  | none => pure ()
  let s := { s with paramDistribution := updList name d s.paramDistribution }
  let t := { t with params := updList name (toExternalRepr d v) t.params,
                    distributions := updList name d t.distributions }
  return memSetTrialRec s id t

/-- InMemoryStorage.set_trial_values. -/
def memSetTrialValues (s : MemStore) (id : Nat) (values : List Int) :
    Except Err MemStore := do
  let t ← memGetTrial s id
  checkUpdatable t.state
  checkUpdatable t.state
  return memSetTrialRec s id { t with values := some values }

/-- InMemoryStorage.set_trial_intermediate_value. -/
def memSetTrialIntermediateValue (s : MemStore) (id : Nat) (step : Int) (v : Int) :
    Except Err MemStore := do
  let t ← memGetTrial s id
  checkUpdatable t.state
  return memSetTrialRec s id
    { t with intermediateValues := updList step v t.intermediateValues }

/-- InMemoryStorage.set_trial_user_attr. -/
def memSetTrialUserAttr (s : MemStore) (id : Nat) (key : String) (v : Int) :
    Except Err MemStore := do
  let t ← memGetTrial s id
  checkUpdatable t.state
  checkUpdatable t.state
  return memSetTrialRec s id { t with userAttrs := updList key v t.userAttrs }

/-- InMemoryStorage.set_trial_system_attr. -/
def memSetTrialSystemAttr (s : MemStore) (id : Nat) (key : String) (v : Int) :
    Except Err MemStore := do
  let t ← memGetTrial s id
  checkUpdatable t.state
  checkUpdatable t.state
  return memSetTrialRec s id { t with systemAttrs := updList key v t.systemAttrs }

/-!
## Full rescan over COMPLETE trials (RedisStorage.get_best_trial, fallback
path when no best-trial pointer exists)
-/

/-- Key used by the rescan comparison: cast(float, t.value).  A COMPLETE
trial always carries a value in the sources; the default is never reached
on the runs considered here. -/
def trialKey (t : Trial) : Int := (t.value).getD 0

/-- Python max(all_trials, key=value): first trial attaining the maximum,
replacing the current champion only on a strictly greater key. -/
def maxByValueFirst (t : Trial) (rest : List Trial) : Trial :=
  rest.foldl (fun acc u => if trialKey acc < trialKey u then u else acc) t

/-- Python min(all_trials, key=value): first trial attaining the minimum. -/
def minByValueFirst (t : Trial) (rest : List Trial) : Trial :=
  rest.foldl (fun acc u => if trialKey u < trialKey acc then u else acc) t

/-- The full rescan of RedisStorage.get_best_trial: filter the COMPLETE
trials (in trial-number order) and take the max (MAXIMIZE) or min
(otherwise) by value; none when no trial is COMPLETE. -/
def rescanBestTrial (direction : StudyDirection) (trials : List Trial) : Option Trial :=
  match trials.filter (fun t => t.state = .complete) with
  | [] => none
  | t :: rest =>
    some (if direction = .maximize then maxByValueFirst t rest else minByValueFirst t rest)

/-!
## Completion runs for the best-trial tracker (claim C3)
-/

/-- A fresh RUNNING trial with a given number, as produced by
InMemoryStorage._create_running_trial. -/
def freshRunningTrial (number : Nat) : Trial :=
  { number := number, state := .running, values := none, intermediateValues := []
    params := [], distributions := [], userAttrs := [], systemAttrs := []
    datetimeStart := some 0, datetimeComplete := none }

/-- A single-objective study holding n freshly created RUNNING trials. -/
def initStudy (direction : StudyDirection) (n : Nat) : MemStore :=
  { trials := (List.range n).map freshRunningTrial
    paramDistribution := [], directions := [direction], bestTrialId := none }

/-- One trial completion: report the objective value, then transition the
trial into COMPLETE through InMemoryStorage.set_trial_state (which runs
_update_cache). -/
def completeTrial (s : MemStore) (id : Nat) (v : Int) : Except Err MemStore := do
  let s ← memSetTrialValues s id [v]
  let (_, s) ← memSetTrialState s id .complete 0
  return s

/-- Run a sequence of trial completions in the given order. -/
def runCompletions (s : MemStore) : List (Nat × Int) → Except Err MemStore
  | [] => .ok s
  | (id, v) :: rest => do runCompletions (← completeTrial s id v) rest

/-!
## Redis backend (src/optuna/storages/_redis.py)

The model is specialised to a single study.  The redis keys of the study
become fields of the store: the per-trial frozen records, the ordered
trial-id list, the heartbeat hash, the best-trial pointer, the direction
list and the global trial-id counter.  Redis server time is an integer.
-/

structure RedisStore where
  trials : List (Nat × Trial)
  trialList : List Nat
  trialCounter : Nat
  heartbeats : List (Nat × Int)
  bestTrialId : Option Nat
  directions : List StudyDirection
  paramDistribution : List (String × Dist)
  heartbeatInterval : Option Int
  gracePeriod : Option Int
deriving DecidableEq

/-- RedisStorage._set_best_trial (the study-summary bookkeeping carries no
further observable trial data in this model). -/
def redisSetBestTrial (r : RedisStore) (id : Nat) : RedisStore :=
  { r with bestTrialId := some id }

/-- RedisStorage._update_cache: incremental best-trial maintenance on a
transition into COMPLETE.  With a best pointer present, get_best_trial
takes the pointer path, so the comparison reads the pointed-at record. -/
def redisUpdateCache (r : RedisStore) (id : Nat) : RedisStore :=
  match lookupList id r.trials with
  | none => r
  | some trial =>
    if trial.state ≠ .complete then r
    else if r.directions.length > 1 then r
    else
      let direction := r.directions.headD .notSet
      match r.bestTrialId with
      | none => redisSetBestTrial r id
      | some bestId =>
        match lookupList bestId r.trials with
        | none => r
        | some best =>
          let bestValue := trialKey best
          let newValue := trialKey trial
          if direction = .maximize then
            if newValue > bestValue then redisSetBestTrial r id else r
          else
            if newValue < bestValue then redisSetBestTrial r id else r

/-- RedisStorage.set_trial_state, including the heartbeat-hash delete on a
finish so that no failed trial keeps a heartbeat in the store. -/
def redisSetTrialState (r : RedisStore) (id : Nat) (state : TrialState) (now : Int) :
    Except Err (Bool × RedisStore) := do
  let t ← match lookupList id r.trials with
          | some t => pure t
          | none => .error .keyError
  checkUpdatable t.state
  if state = .running ∧ t.state ≠ .waiting then
    return (false, r)
  let t := { t with state := state }
  let t := if state = .running then { t with datetimeStart := some now } else t
  if state.isFinished then
    let t := { t with datetimeComplete := some now }
    let r := { r with trials := updList id t r.trials }
    let r := redisUpdateCache r id
    let r := { r with heartbeats := r.heartbeats.filter (fun p => ¬ p.1 = id) }
    return (true, r)
  else
    return (true, { r with trials := updList id t r.trials })

/-- RedisStorage.create_new_trial specialised to one study: a fresh id
from the trial counter, a fresh RUNNING record (or a deep copy of the
template), appended to the trial list; _update_cache runs when the new
record is already finished. -/
def redisCreateTrial (r : RedisStore) (template : Option Trial) (now : Int) : RedisStore :=
  let id := r.trialCounter
  let t := match template with
           | none => { freshRunningTrial id with datetimeStart := some now }
           | some tmpl => { tmpl with number := id }
  let r := { r with trials := updList id t r.trials
                    trialList := r.trialList ++ [id]
                    trialCounter := r.trialCounter + 1 }
  if t.state.isFinished then redisUpdateCache r id else r

/-- RedisStorage.record_heartbeat: stores the current redis time keyed by
trial id (get_study_id_from_trial_id raises KeyError for an unknown id). -/
def redisRecordHeartbeat (r : RedisStore) (id : Nat) (now : Int) : Except Err RedisStore :=
  match lookupList id r.trials with
  | none => .error .keyError
  | some _ => .ok { r with heartbeats := updList id now r.heartbeats }

/-- RedisStorage._get_stale_trial_ids: the effective grace period is the
configured one, or twice the heartbeat interval; a trial is stale when its
last heartbeat is strictly older than the grace period. -/
def redisGetStaleTrialIds (r : RedisStore) (now : Int) : Except Err (List Nat) :=
  match r.heartbeatInterval with
  | none => .error .assertionFailed
  | some interval =>
    let grace := r.gracePeriod.getD (2 * interval)
    .ok ((r.heartbeats.filter (fun p => now - p.2 > grace)).map (fun p => p.1))

/-- The reclamation loop of RedisStorage.fail_stale_trials: attempt FAIL on
each stale id, collecting the accepted ones; a raised exception propagates
with the mutations already performed left in place. -/
def redisFailStaleLoop (r : RedisStore) (now : Int) :
    List Nat → Except Err (List Nat) × RedisStore
  | [] => (.ok [], r)
  | id :: rest =>
    match redisSetTrialState r id .fail now with
    | .error e => (.error e, r)
    | .ok (b, r₁) =>
      match redisFailStaleLoop r₁ now rest with
      | (.ok l, r₂) => (.ok (if b then id :: l else l), r₂)
      | (.error e, r₂) => (.error e, r₂)

/-- RedisStorage.fail_stale_trials. -/
def redisFailStaleTrials (r : RedisStore) (now : Int) :
    Except Err (List Nat) × RedisStore :=
  match redisGetStaleTrialIds r now with
  | .error e => (.error e, r)
  | .ok stale => redisFailStaleLoop r now stale

/-- RedisStorage.set_trial_values. -/
def redisSetTrialValues (r : RedisStore) (id : Nat) (values : List Int) :
    Except Err RedisStore := do
  let t ← match lookupList id r.trials with
          | some t => pure t
          | none => .error .keyError
  checkUpdatable t.state
  return { r with trials := updList id { t with values := some values } r.trials }

/-- RedisStorage.set_trial_param: check compatibility against the study
distribution map, then set the study distribution entry and the trial
params in one pipeline. -/
def redisSetTrialParam (r : RedisStore) (id : Nat) (name : String) (v : Int) (d : Dist) :
    Except Err RedisStore := do
  let t ← match lookupList id r.trials with
          | some t => pure t
          | none => .error .keyError
  checkUpdatable t.state
  match lookupList name r.paramDistribution with
  | some d₀ => checkDistCompat d₀ d
  | none => pure ()
  let t := { t with params := updList name (toExternalRepr d v) t.params
                    distributions := updList name d t.distributions }
  return { r with paramDistribution := updList name d r.paramDistribution
                  trials := updList id t r.trials }

/-- RedisStorage.set_trial_intermediate_value. -/
def redisSetTrialIntermediateValue (r : RedisStore) (id : Nat) (step : Int) (v : Int) :
    Except Err RedisStore := do
  let t ← match lookupList id r.trials with
          | some t => pure t
          | none => .error .keyError
  checkUpdatable t.state
  let t := { t with intermediateValues := updList step v t.intermediateValues }
  return { r with trials := updList id t r.trials }

/-- RedisStorage.set_trial_user_attr. -/
def redisSetTrialUserAttr (r : RedisStore) (id : Nat) (key : String) (v : Int) :
    Except Err RedisStore := do
  let t ← match lookupList id r.trials with
          | some t => pure t
          | none => .error .keyError
  checkUpdatable t.state
  return { r with trials := updList id { t with userAttrs := updList key v t.userAttrs } r.trials }

/-- RedisStorage.set_trial_system_attr. -/
def redisSetTrialSystemAttr (r : RedisStore) (id : Nat) (key : String) (v : Int) :
    Except Err RedisStore := do
  let t ← match lookupList id r.trials with
          | some t => pure t
          | none => .error .keyError
  checkUpdatable t.state
  return { r with trials := updList id { t with systemAttrs := updList key v t.systemAttrs } r.trials }

/-!
## Caching wrapper (src/optuna/storages/_cached_storage.py)

The model follows one locally created, owned RUNNING trial through the
wrapper: the cached snapshot, the pending update buffer, the local
distribution cache, and the wrapped backend (trial record and study
distribution registry).  Backend round trips are counted so the flush
policy is observable.
-/

/-- The pending delta of _cached_storage._TrialUpdate. -/
structure TrialUpdate where
  state : Option TrialState := none
  values : Option (List Int) := none
  intermediateValues : List (Int × Int) := []
  userAttrs : List (String × Int) := []
  systemAttrs : List (String × Int) := []
  params : List (String × Int) := []
  distributions : List (String × Dist) := []
  datetimeComplete : Option Int := none
  datetimeStart : Option Int := none
deriving DecidableEq

/-- Modelled from the spec: the merged-update call of the wrapped Backend
(RDBStorage._update_trial is not part of the sources).  It applies any
subset of the trial fields as one unit: optional fields overwrite when
present, dictionary fields are merged entry by entry, parameter internal
values are materialised through their distributions. -/
def backendUpdateTrial (t : Trial) (u : TrialUpdate) : Trial :=
  { t with
    state := u.state.getD t.state
    values := match u.values with
              | some vs => some vs
              | none => t.values
    intermediateValues := mergeList t.intermediateValues u.intermediateValues
    userAttrs := mergeList t.userAttrs u.userAttrs
    systemAttrs := mergeList t.systemAttrs u.systemAttrs
    params := mergeList t.params (u.params.map (fun p =>
      (p.1, toExternalRepr ((lookupList p.1 u.distributions).getD 0) p.2)))
    distributions := mergeList t.distributions u.distributions
    datetimeStart := match u.datetimeStart with
                     | some d => some d
                     | none => t.datetimeStart
    datetimeComplete := match u.datetimeComplete with
                        | some d => some d
                        | none => t.datetimeComplete }

/-- The state of a _CachedStorage instance restricted to one owned trial:
the backend record and registry, the cached snapshot and cached
distribution map, and the optional pending _TrialUpdate buffer. -/
structure CachedState where
  backendTrial : Trial
  backendRegistry : List (String × Dist)
  cachedTrial : Trial
  cachedRegistry : List (String × Dist)
  updates : Option TrialUpdate
deriving DecidableEq

/-- _CachedStorage._flush_trial: collapse the pending buffer into one
backend merged-update call and clear it; a missing buffer is a no-op.
Returns the new state with the number of backend calls made. -/
def flushTrial (st : CachedState) : CachedState × Nat :=
  match st.updates with
  | none => (st, 0)
  | some u =>
    ({ st with backendTrial := backendUpdateTrial st.backendTrial u, updates := none }, 1)

/-- _CachedStorage.set_trial_values on the owned trial: update the cached
snapshot and the buffer; no flush. -/
def cachedSetTrialValues (st : CachedState) (values : List Int) :
    Except Err (CachedState × Nat) := do
  checkUpdatable st.cachedTrial.state
  let u := st.updates.getD {}
  return ({ st with cachedTrial := { st.cachedTrial with values := some values }
                    updates := some { u with values := some values } }, 0)

/-- _CachedStorage.set_trial_intermediate_value on the owned trial: update
the cached snapshot and the buffer, then flush. -/
def cachedSetTrialIntermediateValue (st : CachedState) (step : Int) (v : Int) :
    Except Err (CachedState × Nat) := do
  checkUpdatable st.cachedTrial.state
  let u := st.updates.getD {}
  let cached := { st.cachedTrial with
                  intermediateValues := updList step v st.cachedTrial.intermediateValues }
  let u := { u with intermediateValues := updList step v u.intermediateValues }
  return flushTrial { st with cachedTrial := cached, updates := some u }

/-- _CachedStorage.set_trial_user_attr on the owned trial: update the
cached snapshot and the buffer, then flush. -/
def cachedSetTrialUserAttr (st : CachedState) (key : String) (v : Int) :
    Except Err (CachedState × Nat) := do
  checkUpdatable st.cachedTrial.state
  let u := st.updates.getD {}
  let cached := { st.cachedTrial with userAttrs := updList key v st.cachedTrial.userAttrs }
  let u := { u with userAttrs := updList key v u.userAttrs }
  return flushTrial { st with cachedTrial := cached, updates := some u }

/-- _CachedStorage.set_trial_system_attr on the owned trial: update the
cached snapshot and the buffer, then flush. -/
def cachedSetTrialSystemAttr (st : CachedState) (key : String) (v : Int) :
    Except Err (CachedState × Nat) := do
  checkUpdatable st.cachedTrial.state
  let u := st.updates.getD {}
  let cached := { st.cachedTrial with systemAttrs := updList key v st.cachedTrial.systemAttrs }
  let u := { u with systemAttrs := updList key v u.systemAttrs }
  return flushTrial { st with cachedTrial := cached, updates := some u }

/-- Modelled from the spec: the atomic register-and-check of the wrapped
Backend (RDBStorage._check_and_set_param_distribution is not part of the
sources).  It checks the new distribution against the study registry,
registers it, and immediately commits the parameter value to the trial
record. -/
def backendCheckAndSetParamDistribution (st : CachedState) (name : String) (v : Int)
    (d : Dist) : Except Err CachedState := do
  match lookupList name st.backendRegistry with
  | some d₀ => checkDistCompat d₀ d
  | none => pure ()
  let t := { st.backendTrial with
             params := updList name (toExternalRepr d v) st.backendTrial.params
             distributions := updList name d st.backendTrial.distributions }
  return { st with backendRegistry := updList name d st.backendRegistry, backendTrial := t }

/-- _CachedStorage.set_trial_param on the owned trial.  On a cached
distribution, check compatibility locally, update the snapshot, buffer the
delta and flush; on a cache miss, call the backend register-and-check
synchronously (one round trip, nothing buffered) and update the local
caches. -/
def cachedSetTrialParam (st : CachedState) (name : String) (v : Int) (d : Dist) :
    Except Err (CachedState × Nat) := do
  checkUpdatable st.cachedTrial.state
  match lookupList name st.cachedRegistry with
  | some d₀ => do
    checkDistCompat d₀ d
    let cached := { st.cachedTrial with
                    params := updList name (toExternalRepr d v) st.cachedTrial.params
                    distributions := updList name d st.cachedTrial.distributions }
    let u := st.updates.getD {}
    let u := { u with params := updList name v u.params
                      distributions := updList name d u.distributions }
    return flushTrial { st with cachedTrial := cached, updates := some u }
  | none => do
    let st ← backendCheckAndSetParamDistribution st name v d
    let st := { st with cachedRegistry := updList name d st.cachedRegistry }
    let cached := { st.cachedTrial with
                    params := updList name (toExternalRepr d v) st.cachedTrial.params
                    distributions := updList name d st.cachedTrial.distributions }
    return ({ st with cachedTrial := cached }, 1)

/-- _CachedStorage.set_trial_state on the owned trial: assert the snapshot
is not WAITING, update the snapshot and the buffer (with the completion
timestamp when the new state is finished), then flush. -/
def cachedSetTrialState (st : CachedState) (state : TrialState) (now : Int) :
    Except Err (CachedState × Nat) := do
  if st.cachedTrial.state = .waiting then
    .error .assertionFailed
  checkUpdatable st.cachedTrial.state
  let u := st.updates.getD {}
  let cached := { st.cachedTrial with state := state }
  let u := { u with state := some state }
  if state.isFinished then
    let cached := { cached with datetimeComplete := some now }
    let u := { u with datetimeComplete := some now }
    return flushTrial { st with cachedTrial := cached, updates := some u }
  else
    return flushTrial { st with cachedTrial := cached, updates := some u }

/-!
## Observational transparency of flush batching (claim C1)

A scenario is a sequence of field writes on one owned RUNNING trial
followed by a finishing set_trial_state.  The cached run drives the writes
through the wrapper; the direct run applies every write against the
Backend with no cache, through the same Backend primitives the wrapper
falls back to for unowned trials (the merged-update call restricted to one
field, and the register-and-check call for parameters).
-/

/-- One field write of a trial scenario. -/
inductive FieldWrite where
  | values (vs : List Int)
  | intermediate (step : Int) (v : Int)
  | param (name : String) (v : Int) (d : Dist)
  | userAttr (key : String) (v : Int)
  | systemAttr (key : String) (v : Int)
deriving DecidableEq

/-- A finishing state for the closing set_trial_state. -/
inductive FinishState where
  | complete
  | fail
  | pruned
deriving DecidableEq

def FinishState.toTrialState : FinishState → TrialState
  | .complete => .complete
  | .fail => .fail
  | .pruned => .pruned

theorem FinishState.toTrialState_isFinished (fs : FinishState) :
    fs.toTrialState.isFinished = true := by
  cases fs <;> rfl

theorem FinishState.toTrialState_ne_waiting (fs : FinishState) :
    fs.toTrialState ≠ .waiting := by
  cases fs <;> simp [FinishState.toTrialState]

/-- Dispatch one field write through the caching wrapper. -/
def cachedApplyWrite (st : CachedState) : FieldWrite → Except Err (CachedState × Nat)
  | .values vs => cachedSetTrialValues st vs
  | .intermediate step v => cachedSetTrialIntermediateValue st step v
  | .param name v d => cachedSetTrialParam st name v d
  | .userAttr key v => cachedSetTrialUserAttr st key v
  | .systemAttr key v => cachedSetTrialSystemAttr st key v

/-- Run a list of field writes through the caching wrapper. -/
def cachedRunWrites (st : CachedState) : List FieldWrite → Except Err CachedState
  | [] => .ok st
  | w :: rest => do cachedRunWrites (← cachedApplyWrite st w).1 rest

/-- The whole cached scenario: the writes, then the finishing state write
(which flushes); the result is the record persisted in the backend. -/
def cachedRunScenario (t₀ : Trial) (r₀ : List (String × Dist)) (ws : List FieldWrite)
    (fs : FinishState) (now : Int) : Except Err Trial := do
  let st : CachedState :=
    { backendTrial := t₀, backendRegistry := r₀, cachedTrial := t₀
      cachedRegistry := r₀, updates := none }
  let st ← cachedRunWrites st ws
  let (st, _) ← cachedSetTrialState st fs.toTrialState now
  return st.backendTrial

/-- The state of the Backend alone: the trial record and the study
distribution registry. -/
structure DirectState where
  trial : Trial
  registry : List (String × Dist)
deriving DecidableEq

/-- Apply one field write directly against the Backend with no cache,
through the primitives the wrapper delegates to when a trial is not
cached: a single-field merged update, or register-and-check for a
parameter. -/
def directApplyWrite (d : DirectState) : FieldWrite → Except Err DirectState
  | .values vs => do
    checkUpdatable d.trial.state
    return { d with trial := backendUpdateTrial d.trial { values := some vs } }
  | .intermediate step v => do
    checkUpdatable d.trial.state
    let u : TrialUpdate := { intermediateValues := [(step, v)] }
    return { d with trial := backendUpdateTrial d.trial u }
  | .param name v dist => do
    checkUpdatable d.trial.state
    match lookupList name d.registry with
    | some d₀ => checkDistCompat d₀ dist
    | none => pure ()
    let t := { d.trial with
               params := updList name (toExternalRepr dist v) d.trial.params
               distributions := updList name dist d.trial.distributions }
    return { trial := t, registry := updList name dist d.registry }
  | .userAttr key v => do
    checkUpdatable d.trial.state
    return { d with trial := backendUpdateTrial d.trial { userAttrs := [(key, v)] } }
  | .systemAttr key v => do
    checkUpdatable d.trial.state
    return { d with trial := backendUpdateTrial d.trial { systemAttrs := [(key, v)] } }

/-- The finishing state write directly against the Backend: the transition
into a finished state is accepted and stamps the completion time. -/
def directSetTrialState (d : DirectState) (fs : FinishState) (now : Int) :
    Except Err DirectState := do
  checkUpdatable d.trial.state
  return { d with trial :=
    { d.trial with state := fs.toTrialState, datetimeComplete := some now } }

/-- Run a list of field writes directly against the Backend. -/
def directRunWrites (d : DirectState) : List FieldWrite → Except Err DirectState
  | [] => .ok d
  | w :: rest => do directRunWrites (← directApplyWrite d w) rest

/-- The whole direct scenario with no cache. -/
def directRunScenario (t₀ : Trial) (r₀ : List (String × Dist)) (ws : List FieldWrite)
    (fs : FinishState) (now : Int) : Except Err Trial := do
  let d ← directRunWrites { trial := t₀, registry := r₀ } ws
  let d ← directSetTrialState d fs now
  return d.trial

/-!
## Ownership invariant of the caching wrapper (claim C9)

A multi-trial model of one _CachedStorage instance in front of its
Backend: the backend trial table with its id counter, and the wrapper
structures of one study (the id map domain, the number-to-snapshot cache,
and the owned-or-finished id set).  Trial ids equal trial numbers in the
single study.
-/

structure WState where
  backendTrials : List (Nat × Trial)
  backendCounter : Nat
  known : List Nat
  cache : List (Nat × Trial)
  owned : List Nat
deriving DecidableEq

/-- Operations a caller can drive the wrapper with. -/
inductive WOp where
  | createTrial (st : TrialState) (now : Int)
  | setTrialState (id : Nat) (st : TrialState) (now : Int)
  | readRemote
deriving DecidableEq

/-- _CachedStorage._get_cached_trial: a snapshot is served only for a
known, owned-or-finished id. -/
def wGetCachedTrial (w : WState) (id : Nat) : Option Trial :=
  if id ∈ w.known then
    if id ∈ w.owned then lookupList id w.cache else none
  else none

/-- _CachedStorage.get_trial: the cached snapshot when the id is
owned-or-finished, otherwise the backend record; the flag records whether
the cache answered. -/
def wGetTrial (w : WState) (id : Nat) : Option Trial × Bool :=
  match wGetCachedTrial w id with
  | some t => (some t, true)
  | none => (lookupList id w.backendTrials, false)

/-- Modelled from the spec: the Backend atomic set-trial-state the wrapper
delegates to for uncached ids (RDBStorage is not part of the sources);
the transition function is that of the two reference backends. -/
def wBackendSetTrialState (w : WState) (id : Nat) (state : TrialState) (now : Int) :
    Except Err (Bool × WState) := do
  let t ← match lookupList id w.backendTrials with
          | some t => pure t
          | none => .error .keyError
  checkUpdatable t.state
  if state = .running ∧ t.state ≠ .waiting then
    return (false, w)
  let t := { t with state := state }
  let t := if state = .running then { t with datetimeStart := some now } else t
  let t := if state.isFinished then { t with datetimeComplete := some now } else t
  return (true, { w with backendTrials := updList id t w.backendTrials })

/-- _CachedStorage.create_new_trial: the Backend creates the record;
the wrapper registers the id, admits the snapshot, and marks the id
owned exactly when the initial state is not WAITING. -/
def wCreateTrial (w : WState) (state : TrialState) (now : Int) : WState :=
  let id := w.backendCounter
  let t : Trial :=
    { freshRunningTrial id with
      state := state
      datetimeStart := if state = .running then some now else none }
  let w := { w with backendTrials := updList id t w.backendTrials
                    backendCounter := w.backendCounter + 1
                    known := w.known ++ [id]
                    cache := updList id t w.cache }
  if state ≠ .waiting then { w with owned := id :: w.owned } else w

/-- _CachedStorage.set_trial_state.  On a cached owned trial the snapshot
is updated and the buffered delta is flushed at once (set_trial_state
always flushes, so the buffer is inlined into the single merged update).
On an uncached trial the Backend is called; a successful WAITING-claim to
RUNNING admits the fresh backend snapshot and marks the id owned. -/
def wSetTrialState (w : WState) (id : Nat) (state : TrialState) (now : Int) :
    Except Err (Bool × WState) := do
  match wGetCachedTrial w id with
  | some cached => do
    if cached.state = .waiting then
      .error .assertionFailed
    checkUpdatable cached.state
    let cached := { cached with state := state }
    let cached := if state.isFinished then { cached with datetimeComplete := some now }
                  else cached
    let u : TrialUpdate :=
      { state := some state
        datetimeComplete := if state.isFinished then some now else none }
    let backendTrials := match lookupList id w.backendTrials with
                         | some bt => updList id (backendUpdateTrial bt u) w.backendTrials
                         | none => w.backendTrials
    return (true, { w with cache := updList id cached w.cache
                           backendTrials := backendTrials })
  | none => do
    let (ret, w) ← wBackendSetTrialState w id state now
    if ret ∧ state = .running ∧ id ∈ w.known then
      match lookupList id w.backendTrials with
      | some bt =>
        return (true, { w with cache := updList id bt w.cache, owned := id :: w.owned })
      | none => return (true, w)
    else
      return (ret, w)

/-- _CachedStorage.read_trials_from_remote_storage: fetch the backend
trials excluding the owned-or-finished ids, admit them all to the
number-to-snapshot cache, and mark the finished ones owned. -/
def wReadRemote (w : WState) : WState :=
  let fetched := w.backendTrials.filter (fun p => ¬ p.1 ∈ w.owned)
  { w with known := w.known ++ fetched.map (fun p => p.1)
           cache := fetched.foldl (fun acc p => updList p.1 p.2 acc) w.cache
           owned := w.owned ++
             (fetched.filter (fun p => p.2.state.isFinished)).map (fun p => p.1) }

/-- Drive the wrapper with one operation; an exception leaves the state
unchanged (the modelled operations raise before mutating). -/
def runWOp (w : WState) : WOp → WState
  | .createTrial st now => wCreateTrial w st now
  | .setTrialState id st now =>
    match wSetTrialState w id st now with
    | .ok (_, w₁) => w₁
    | .error _ => w
  | .readRemote => wReadRemote w

def runWOps (w : WState) : List WOp → WState
  | [] => w
  | op :: rest => runWOps (runWOp w op) rest

/-- Soundness of one owned id: the cached snapshot exists, coincides with
the backend record, and is not WAITING. -/
def wOwnedOkB (w : WState) (id : Nat) : Bool :=
  match lookupList id w.cache, lookupList id w.backendTrials with
  | some ct, some bt => decide (ct = bt) && decide (¬ ct.state = .waiting)
  | _, _ => false

/-- The ownership invariant: every owned id is known and has a sound
cached snapshot, the backend keys stay below the id counter, and the
backend keys are distinct. -/
def wInvB (w : WState) : Bool :=
  w.owned.all (wOwnedOkB w) &&
  w.owned.all (fun id => decide (id ∈ w.known)) &&
  w.backendTrials.all (fun p => decide (p.1 < w.backendCounter)) &&
  decide ((w.backendTrials.map Prod.fst).Nodup)

theorem wOwnedOkB_iff {w : WState} {id : Nat} : wOwnedOkB w id = true ↔
    ∃ t, lookupList id w.cache = some t ∧ lookupList id w.backendTrials = some t ∧
      ¬ t.state = .waiting := by
  simp only [wOwnedOkB]
  cases h1 : lookupList id w.cache with
  | none => simp
  | some ct =>
    cases h2 : lookupList id w.backendTrials with
    | none => simp
    | some bt =>
      simp only [Bool.and_eq_true, decide_eq_true_iff, Option.some.injEq]
      constructor
      · rintro ⟨hcb, hw⟩
        exact ⟨ct, rfl, hcb.symm, hw⟩
      · rintro ⟨t, h1, h2, hw⟩
        subst h1
        exact ⟨h2.symm, hw⟩

/-- The legal-transition guard: set_trial_state is never asked to put a
trial back into WAITING (the state machine has no transition into
WAITING). -/
def wOpLegalB : WOp → Bool
  | .setTrialState _ st _ => ¬ st = .waiting
  | _ => true

def wOpsLegalB (ops : List WOp) : Bool := ops.all wOpLegalB

/-- The empty wrapper over an empty backend. -/
def wEmpty : WState :=
  { backendTrials := [], backendCounter := 0, known := [], cache := [], owned := [] }

/-- An empty single-study redis store configured with heartbeat interval 5
and no explicit grace period. -/
def rEmptyFiveNone : RedisStore :=
  { trials := [], trialList := [], trialCounter := 0, heartbeats := []
    bestTrialId := none, directions := [.notSet], paramDistribution := []
    heartbeatInterval := some 5, gracePeriod := none }

/-!
## Claim theorems
-/

/-- C10: Rejected state transitions are side-effect free.  Whenever a
backend set_trial_state returns false, the stored data is completely
unchanged, in both the in-memory and the redis backends. -/
theorem rejected_transition_leaves_store_unchanged :
    (∀ (s : MemStore) (id : Nat) (state : TrialState) (now : Int) (s₁ : MemStore),
       memSetTrialState s id state now = .ok (false, s₁) → s₁ = s) ∧
    (∀ (r : RedisStore) (id : Nat) (state : TrialState) (now : Int) (r₁ : RedisStore),
       redisSetTrialState r id state now = .ok (false, r₁) → r₁ = r) := by
  constructor
  · intro s id state now s₁ h
    simp only [memSetTrialState, bind, Except.bind, pure, Except.pure] at h
    repeat' split at h
    all_goals simp_all
  · intro r id state now r₁ h
    simp only [redisSetTrialState, bind, Except.bind, pure, Except.pure] at h
    repeat' split at h
    all_goals simp_all

/-- Concrete instantiation of the C10 theorem: requesting RUNNING on an
already-RUNNING trial is rejected and leaves both stores untouched. -/
theorem rejected_transition_leaves_store_unchanged_witness :
    (memSetTrialState (initStudy .maximize 1) 0 .running 5 =
       .ok (false, initStudy .maximize 1)) ∧
    (redisSetTrialState (redisCreateTrial rEmptyFiveNone none 0) 0 .running 5 =
       .ok (false, redisCreateTrial rEmptyFiveNone none 0)) ∧
    ((initStudy .maximize 1 : MemStore) = initStudy .maximize 1) ∧
    ((redisCreateTrial rEmptyFiveNone none 0 : RedisStore) =
       redisCreateTrial rEmptyFiveNone none 0) :=
  ⟨by decide, by decide,
   rejected_transition_leaves_store_unchanged.1 _ 0 .running 5 _ (by decide),
   rejected_transition_leaves_store_unchanged.2 _ 0 .running 5 _ (by decide)⟩

/-- The record produced by a successful claim: state RUNNING, start time
stamped with the current time. -/
def claimedTrial (t : Trial) (now : Int) : Trial :=
  { t with state := .running, datetimeStart := some now }

/-- A one-trial study whose only trial is WAITING. -/
def memWaitingStudy : MemStore :=
  { trials := [{ freshRunningTrial 0 with state := .waiting }]
    paramDistribution := [], directions := [.notSet], bestTrialId := none }

/-- C2: For an existing non-finished trial, set_trial_state(trial,
RUNNING) succeeds exactly from WAITING: it returns true, sets the state to
RUNNING and stamps the start time if and only if the current state is
WAITING, and returns false (changing nothing) from any other non-finished
state, in both backends. -/
theorem claim_succeeds_iff_waiting :
    (∀ (s : MemStore) (id : Nat) (t : Trial) (now : Int),
       s.trials[id]? = some t → t.state.isFinished = false →
       (t.state = .waiting →
          memSetTrialState s id .running now =
            .ok (true, memSetTrialRec s id (claimedTrial t now))) ∧
       (t.state ≠ .waiting →
          memSetTrialState s id .running now = .ok (false, s))) ∧
    (∀ (r : RedisStore) (id : Nat) (t : Trial) (now : Int),
       lookupList id r.trials = some t → t.state.isFinished = false →
       (t.state = .waiting →
          redisSetTrialState r id .running now =
            .ok (true, { r with trials := updList id (claimedTrial t now) r.trials })) ∧
       (t.state ≠ .waiting →
          redisSetTrialState r id .running now = .ok (false, r))) := by
  constructor
  · intro s id t now hget hfin
    constructor
    · intro hw
      simp [memSetTrialState, memGetTrial, hget, bind, Except.bind, pure, Except.pure,
        checkUpdatable, hfin, hw, TrialState.isFinished, claimedTrial]
    · intro hw
      simp [memSetTrialState, memGetTrial, hget, bind, Except.bind, pure, Except.pure,
        checkUpdatable, hfin, hw]
  · intro r id t now hget hfin
    constructor
    · intro hw
      simp [redisSetTrialState, hget, bind, Except.bind, pure, Except.pure,
        checkUpdatable, hfin, hw, TrialState.isFinished, claimedTrial]
    · intro hw
      simp [redisSetTrialState, hget, bind, Except.bind, pure, Except.pure,
        checkUpdatable, hfin, hw]

/-- Concrete instantiation of the C2 theorem: a WAITING trial is claimed
(true, RUNNING, start time stamped) and a RUNNING one is refused. -/
theorem claim_succeeds_iff_waiting_witness :
    ((memWaitingStudy.trials[0]? = some { freshRunningTrial 0 with state := .waiting }) ∧
     ({ freshRunningTrial 0 with state := .waiting } : Trial).state.isFinished = false) ∧
    (memSetTrialState memWaitingStudy 0 .running 7 =
       .ok (true, memSetTrialRec memWaitingStudy 0
         (claimedTrial { freshRunningTrial 0 with state := .waiting } 7))) ∧
    (memSetTrialState (initStudy .maximize 1) 0 .running 7 = .ok (false, initStudy .maximize 1)) :=
  ⟨⟨by decide, by decide⟩,
   (claim_succeeds_iff_waiting.1 memWaitingStudy 0
      { freshRunningTrial 0 with state := .waiting } 7 (by decide) (by decide)).1 (by decide),
   (claim_succeeds_iff_waiting.1 (initStudy .maximize 1) 0 (freshRunningTrial 0) 7
      (by decide) (by decide)).2 (by decide)⟩

/-- A redis study configured with heartbeat_interval 5 and no explicit
grace period, holding two RUNNING trials whose last heartbeats are 11 and
9 seconds old at time T. -/
def rStaleStudy (T : Int) : RedisStore :=
  { trials := [(0, freshRunningTrial 0), (1, freshRunningTrial 1)]
    trialList := [0, 1], trialCounter := 2
    heartbeats := [(0, T - 11), (1, T - 9)]
    bestTrialId := none, directions := [.notSet], paramDistribution := []
    heartbeatInterval := some 5, gracePeriod := none }

/-- C7: With heartbeat_interval 5 and grace_period None the effective
grace period is 10: at time T a RUNNING trial with last heartbeat T - 11
is scanned as stale, transitioned to FAIL (completion time stamped) and
returned as confirmed, while a RUNNING trial with last heartbeat T - 9 is
neither returned nor touched (its record and heartbeat are unchanged). -/
theorem stale_threshold_arithmetic (T : Int) :
    redisGetStaleTrialIds (rStaleStudy T) T = .ok [0] ∧
    (redisFailStaleTrials (rStaleStudy T) T).1 = .ok [0] ∧
    lookupList 0 (redisFailStaleTrials (rStaleStudy T) T).2.trials =
      some { freshRunningTrial 0 with state := .fail, datetimeComplete := some T } ∧
    lookupList 1 (redisFailStaleTrials (rStaleStudy T) T).2.trials =
      some (freshRunningTrial 1) ∧
    lookupList 1 (redisFailStaleTrials (rStaleStudy T) T).2.heartbeats = some (T - 9) := by
  have e1 : T - (T - 11) = 11 := by ring
  have e2 : T - (T - 9) = 9 := by ring
  have hscan : redisGetStaleTrialIds (rStaleStudy T) T = .ok [0] := by
    simp [redisGetStaleTrialIds, rStaleStudy, e1, e2]
  refine ⟨hscan, ?_⟩
  simp only [redisFailStaleTrials, hscan]
  simp [redisFailStaleLoop, redisSetTrialState, redisUpdateCache, rStaleStudy,
    lookupList, updList, checkUpdatable, TrialState.isFinished, freshRunningTrial,
    bind, Except.bind, pure, Except.pure]

theorem TrialState.isFinished_ne_waiting {st : TrialState} (h : st.isFinished = true) :
    st ≠ .waiting := by
  cases st <;> simp_all [TrialState.isFinished]

/-- C4: Once a trial is finished, every write operation on it (state,
values, param, intermediate value, user attr, system attr) fails with the
not-updatable error: through the caching wrapper on its cached snapshot,
and in both backends. -/
theorem finished_trial_writes_fail
    (st : CachedState) (hstf : st.cachedTrial.state.isFinished = true)
    (s : MemStore) (mid : Nat) (mt : Trial) (hmg : s.trials[mid]? = some mt)
    (hmf : mt.state.isFinished = true)
    (r : RedisStore) (rid : Nat) (rt : Trial) (hrg : lookupList rid r.trials = some rt)
    (hrf : rt.state.isFinished = true) :
    ((∀ state now, cachedSetTrialState st state now = .error .notUpdatable) ∧
     (∀ vs, cachedSetTrialValues st vs = .error .notUpdatable) ∧
     (∀ name v d, cachedSetTrialParam st name v d = .error .notUpdatable) ∧
     (∀ step v, cachedSetTrialIntermediateValue st step v = .error .notUpdatable) ∧
     (∀ key v, cachedSetTrialUserAttr st key v = .error .notUpdatable) ∧
     (∀ key v, cachedSetTrialSystemAttr st key v = .error .notUpdatable)) ∧
    ((∀ state now, memSetTrialState s mid state now = .error .notUpdatable) ∧
     (∀ vs, memSetTrialValues s mid vs = .error .notUpdatable) ∧
     (∀ name v d, memSetTrialParam s mid name v d = .error .notUpdatable) ∧
     (∀ step v, memSetTrialIntermediateValue s mid step v = .error .notUpdatable) ∧
     (∀ key v, memSetTrialUserAttr s mid key v = .error .notUpdatable) ∧
     (∀ key v, memSetTrialSystemAttr s mid key v = .error .notUpdatable)) ∧
    ((∀ state now, redisSetTrialState r rid state now = .error .notUpdatable) ∧
     (∀ vs, redisSetTrialValues r rid vs = .error .notUpdatable) ∧
     (∀ name v d, redisSetTrialParam r rid name v d = .error .notUpdatable) ∧
     (∀ step v, redisSetTrialIntermediateValue r rid step v = .error .notUpdatable) ∧
     (∀ key v, redisSetTrialUserAttr r rid key v = .error .notUpdatable) ∧
     (∀ key v, redisSetTrialSystemAttr r rid key v = .error .notUpdatable)) := by
  have hw := TrialState.isFinished_ne_waiting hstf
  refine ⟨⟨?_, ?_, ?_, ?_, ?_, ?_⟩, ⟨?_, ?_, ?_, ?_, ?_, ?_⟩, ⟨?_, ?_, ?_, ?_, ?_, ?_⟩⟩ <;>
    intros <;>
    simp [cachedSetTrialState, cachedSetTrialValues, cachedSetTrialParam,
      cachedSetTrialIntermediateValue, cachedSetTrialUserAttr, cachedSetTrialSystemAttr,
      memSetTrialState, memSetTrialValues, memSetTrialParam,
      memSetTrialIntermediateValue, memSetTrialUserAttr, memSetTrialSystemAttr,
      memGetTrial, redisSetTrialState, redisSetTrialValues, redisSetTrialParam,
      redisSetTrialIntermediateValue, redisSetTrialUserAttr, redisSetTrialSystemAttr,
      hmg, hrg, hw, checkUpdatable, hstf, hmf, hrf, bind, Except.bind, pure, Except.pure]

/-- A finished (COMPLETE) trial record used by concrete instantiations. -/
def doneTrial : Trial :=
  { freshRunningTrial 0 with
    state := .complete
    values := some [1]
    datetimeComplete := some 1 }

/-- A cached-wrapper state whose owned trial is finished. -/
def stDone : CachedState :=
  { backendTrial := doneTrial, backendRegistry := [], cachedTrial := doneTrial
    cachedRegistry := [], updates := none }

/-- A one-trial in-memory study whose trial is finished. -/
def memDoneStudy : MemStore :=
  { trials := [doneTrial], paramDistribution := [], directions := [.notSet]
    bestTrialId := some 0 }

/-- A one-trial redis study whose trial is finished. -/
def redisDoneStudy : RedisStore :=
  { trials := [(0, doneTrial)], trialList := [0], trialCounter := 1, heartbeats := []
    bestTrialId := some 0, directions := [.notSet], paramDistribution := []
    heartbeatInterval := some 5, gracePeriod := none }

/-- Concrete instantiation of the C4 theorem on a COMPLETE trial. -/
theorem finished_trial_writes_fail_witness :
    (stDone.cachedTrial.state.isFinished = true ∧
     memDoneStudy.trials[0]? = some doneTrial ∧
     lookupList 0 redisDoneStudy.trials = some doneTrial) ∧
    (cachedSetTrialValues stDone [9] = .error .notUpdatable ∧
     memSetTrialUserAttr memDoneStudy 0 "k" 3 = .error .notUpdatable ∧
     redisSetTrialState redisDoneStudy 0 .fail 2 = .error .notUpdatable) :=
  ⟨⟨by decide, by decide, by decide⟩,
   ((finished_trial_writes_fail stDone (by decide) memDoneStudy 0 doneTrial (by decide)
        (by decide) redisDoneStudy 0 doneTrial (by decide) (by decide)).1.2.1 [9]),
   ((finished_trial_writes_fail stDone (by decide) memDoneStudy 0 doneTrial (by decide)
        (by decide) redisDoneStudy 0 doneTrial (by decide) (by decide)).2.1.2.2.2.2.1 "k" 3),
   ((finished_trial_writes_fail stDone (by decide) memDoneStudy 0 doneTrial (by decide)
        (by decide) redisDoneStudy 0 doneTrial (by decide) (by decide)).2.2.1 .fail 2)⟩

/-- A fresh cached-wrapper state over a newly created RUNNING trial. -/
def stFresh : CachedState :=
  { backendTrial := freshRunningTrial 0, backendRegistry := []
    cachedTrial := freshRunningTrial 0, cachedRegistry := [], updates := none }

/-- C5 counterexample: a user-attribute write through the wrapper on an
owned non-finished trial makes one backend call (it flushes the pending
buffer), not zero. -/
theorem attr_write_makes_backend_call :
    (match cachedSetTrialUserAttr stFresh "k" 1 with
     | .ok (_, calls) => calls
     | .error _ => 0) = 1 := by decide

/-- C5 (amended): On an owned non-finished trial, a value write is applied
to the local snapshot and appended to the pending buffer only, with no
backend call; an intermediate-value, user-attribute or system-attribute
write applies locally, buffers, and then immediately flushes the pending
buffer, making exactly one backend merged-update call. -/
theorem buffered_write_flush_policy (st : CachedState)
    (h : st.cachedTrial.state.isFinished = false) :
    (∀ vs, cachedSetTrialValues st vs =
       .ok ({ st with
              cachedTrial := { st.cachedTrial with values := some vs }
              updates := some { st.updates.getD {} with values := some vs } }, 0)) ∧
    (∀ step v, (cachedSetTrialIntermediateValue st step v).map Prod.snd = .ok 1) ∧
    (∀ key v, (cachedSetTrialUserAttr st key v).map Prod.snd = .ok 1) ∧
    (∀ key v, (cachedSetTrialSystemAttr st key v).map Prod.snd = .ok 1) := by
  refine ⟨?_, ?_, ?_, ?_⟩
  · intro vs
    simp [cachedSetTrialValues, checkUpdatable, h, bind, Except.bind, pure, Except.pure]
  · intro step v
    simp [cachedSetTrialIntermediateValue, checkUpdatable, h, flushTrial,
      bind, Except.bind, pure, Except.pure, Except.map]
  · intro key v
    simp [cachedSetTrialUserAttr, checkUpdatable, h, flushTrial,
      bind, Except.bind, pure, Except.pure, Except.map]
  · intro key v
    simp [cachedSetTrialSystemAttr, checkUpdatable, h, flushTrial,
      bind, Except.bind, pure, Except.pure, Except.map]

/-- Concrete instantiation of the amended C5 theorem. -/
theorem buffered_write_flush_policy_witness :
    (stFresh.cachedTrial.state.isFinished = false) ∧
    (cachedSetTrialValues stFresh [4] =
       .ok ({ stFresh with
              cachedTrial := { stFresh.cachedTrial with values := some [4] }
              updates := some { stFresh.updates.getD {} with values := some [4] } }, 0)) ∧
    ((cachedSetTrialIntermediateValue stFresh 2 9).map Prod.snd = .ok 1) :=
  ⟨by decide,
   (buffered_write_flush_policy stFresh (by decide)).1 [4],
   (buffered_write_flush_policy stFresh (by decide)).2.1 2 9⟩

/-- The redis store after a FAIL transition of one trial: the record is
replaced and the heartbeat entry dropped; the best-trial pointer is
untouched because the new state is not COMPLETE. -/
def redisAfterFail (r : RedisStore) (id : Nat) (t : Trial) (now : Int) : RedisStore :=
  { r with
    trials := updList id { t with state := .fail, datetimeComplete := some now } r.trials
    heartbeats := r.heartbeats.filter (fun p => ¬ p.1 = id) }

theorem redisSetTrialState_fail_ok {r : RedisStore} {id : Nat} {t : Trial} (now : Int)
    (hg : lookupList id r.trials = some t) (hf : t.state.isFinished = false) :
    redisSetTrialState r id .fail now = .ok (true, redisAfterFail r id t now) := by
  have hne : ¬ (TrialState.fail = TrialState.running ∧ ¬ t.state = TrialState.waiting) := by
    simp
  simp only [redisSetTrialState, hg, bind, Except.bind, pure, Except.pure,
    checkUpdatable, hf, Bool.false_eq_true, if_false]
  simp only [hne, if_false, TrialState.isFinished, if_true]
  have hcache :
      redisUpdateCache
        { r with trials :=
            updList id { t with state := .fail, datetimeComplete := some now } r.trials } id =
      { r with trials :=
          updList id { t with state := .fail, datetimeComplete := some now } r.trials } := by
    simp [redisUpdateCache, lookupList_updList_self]
  simp [hcache, redisAfterFail]

theorem redisFailStaleLoop_all_ok (now : Int) :
    ∀ (stale : List Nat) (r : RedisStore), stale.Nodup →
    (∀ id ∈ stale, ∃ t, lookupList id r.trials = some t ∧ t.state.isFinished = false) →
    (redisFailStaleLoop r now stale).1 = .ok stale ∧
    (∀ j, j ∉ stale →
       lookupList j (redisFailStaleLoop r now stale).2.trials = lookupList j r.trials) ∧
    (∀ id ∈ stale, ∃ t,
       lookupList id (redisFailStaleLoop r now stale).2.trials = some t ∧
       t.state = .fail) := by
  intro stale
  induction stale with
  | nil =>
    intro r _ _
    refine ⟨rfl, fun j _ => rfl, fun id h => absurd h (List.not_mem_nil id)⟩
  | cons id rest ih =>
    intro r hnd hex
    obtain ⟨t, hg, hf⟩ := hex id (List.mem_cons_self id rest)
    have hstep := redisSetTrialState_fail_ok now hg hf
    have hndr : rest.Nodup := (List.nodup_cons.mp hnd).2
    have hid : id ∉ rest := (List.nodup_cons.mp hnd).1
    have hexr : ∀ j ∈ rest, ∃ u,
        lookupList j (redisAfterFail r id t now).trials = some u ∧
        u.state.isFinished = false := by
      intro j hj
      obtain ⟨u, hgu, hfu⟩ := hex j (List.mem_cons_of_mem id hj)
      refine ⟨u, ?_, hfu⟩
      have hjid : j ≠ id := fun hcon => hid (hcon ▸ hj)
      simpa [redisAfterFail, lookupList_updList_ne _ _ hjid] using hgu
    obtain ⟨ih1, ih2, ih3⟩ := ih (redisAfterFail r id t now) hndr hexr
    rcases hres : redisFailStaleLoop (redisAfterFail r id t now) now rest with ⟨res, r₂⟩
    rw [hres] at ih1 ih2 ih3
    simp only at ih1 ih2 ih3
    subst ih1
    have hcons : redisFailStaleLoop r now (id :: rest) = (.ok (id :: rest), r₂) := by
      simp [redisFailStaleLoop, hstep, hres]
    refine ⟨by simp [hcons], ?_, ?_⟩
    · intro j hj
      have hjid : j ≠ id := by
        intro h
        exact hj (h ▸ List.mem_cons_self id rest)
      have hjrest : j ∉ rest := fun h => hj (List.mem_cons_of_mem id h)
      rw [hcons]
      have h₂ := ih2 j hjrest
      simp only [h₂]
      simp [redisAfterFail, lookupList_updList_ne _ _ hjid]
    · intro j hj
      rcases List.mem_cons.mp hj with h | h
      · subst h
        rw [hcons]
        refine ⟨{ t with state := .fail, datetimeComplete := some now }, ?_, rfl⟩
        have h₂ := ih2 j hid
        simp only [h₂]
        simp [redisAfterFail, lookupList_updList_self]
      · rw [hcons]
        exact ih3 j h

theorem redisFailStaleLoop_error_of_finished (now : Int) :
    ∀ (stale : List Nat) (r : RedisStore),
    (∀ id ∈ stale, ∃ t, lookupList id r.trials = some t) →
    (∃ id ∈ stale, ∃ t, lookupList id r.trials = some t ∧ t.state.isFinished = true) →
    ∃ e, (redisFailStaleLoop r now stale).1 = .error e := by
  intro stale
  induction stale with
  | nil =>
    intro r _ hex
    obtain ⟨id, hid, _⟩ := hex
    exact absurd hid (List.not_mem_nil id)
  | cons id rest ih =>
    intro r hall hex
    obtain ⟨t, hg⟩ := hall id (List.mem_cons_self id rest)
    by_cases hf : t.state.isFinished = true
    · have herr : redisSetTrialState r id .fail now = .error .notUpdatable := by
        simp [redisSetTrialState, hg, bind, Except.bind, pure, Except.pure,
          checkUpdatable, hf]
      exact ⟨.notUpdatable, by simp [redisFailStaleLoop, herr]⟩
    · have hf₀ : t.state.isFinished = false := by simpa using hf
      have hstep := redisSetTrialState_fail_ok now hg hf₀
      obtain ⟨j, hj, u, hgu, hfu⟩ := hex
      have hjid : j ≠ id := by
        intro h
        subst h
        rw [hg] at hgu
        injection hgu with huv
        rw [← huv] at hfu
        exact hf hfu
      have hjrest : j ∈ rest := by
        rcases List.mem_cons.mp hj with h | h
        · exact absurd h hjid
        · exact h
      have hall₁ : ∀ k ∈ rest, ∃ v,
          lookupList k (redisAfterFail r id t now).trials = some v := by
        intro k hk
        by_cases hkid : k = id
        · subst hkid
          refine ⟨{ t with state := .fail, datetimeComplete := some now }, ?_⟩
          simp [redisAfterFail, lookupList_updList_self]
        · obtain ⟨v, hv⟩ := hall k (List.mem_cons_of_mem id hk)
          exact ⟨v, by simpa [redisAfterFail, lookupList_updList_ne _ _ hkid] using hv⟩
      have hex₁ : ∃ k ∈ rest, ∃ v,
          lookupList k (redisAfterFail r id t now).trials = some v ∧
          v.state.isFinished = true :=
        ⟨j, hjrest, u, by simpa [redisAfterFail, lookupList_updList_ne _ _ hjid] using hgu, hfu⟩
      obtain ⟨e, he⟩ := ih (redisAfterFail r id t now) hall₁ hex₁
      refine ⟨e, ?_⟩
      rcases hres : redisFailStaleLoop (redisAfterFail r id t now) now rest with ⟨res, r₂⟩
      rw [hres] at he
      simp only at he
      subst he
      simp [redisFailStaleLoop, hstep, hres]

/-- A redis study whose only trial is COMPLETE but still has a stale
heartbeat record (as when another worker finished the trial between the
staleness scan and the reclamation attempt, or a heartbeat was recorded
after the finish). -/
def rDoneStale : RedisStore :=
  { redisDoneStudy with heartbeats := [(0, 0)] }

/-- C6 counterexample: a trial already finished at the moment of the
reclamation attempt, with a stale heartbeat record, makes
fail_stale_trials raise the not-updatable error instead of tolerating the
trial. -/
theorem fail_stale_raises_on_finished :
    redisGetStaleTrialIds rDoneStale 100 = .ok [0] ∧
    (redisFailStaleTrials rDoneStale 100).1 = .error .notUpdatable := by decide

/-- C6 (amended): fail_stale_trials returns exactly the stale trial ids
whose FAIL transition is accepted: when every stale trial is still
unfinished, all of them are transitioned to FAIL and returned as
confirmed; but when some stale trial is already finished at the attempt,
the operation raises an error instead of skipping that trial. -/
theorem fail_stale_confirms_or_raises (r : RedisStore) (now : Int) (stale : List Nat)
    (hst : redisGetStaleTrialIds r now = .ok stale) :
    (stale.Nodup →
     (∀ id ∈ stale, (match lookupList id r.trials with
        | some t => !t.state.isFinished
        | none => false) = true) →
     (redisFailStaleTrials r now).1 = .ok stale ∧
     ∀ id ∈ stale, ∃ t, lookupList id (redisFailStaleTrials r now).2.trials = some t ∧
       t.state = .fail) ∧
    ((∀ id ∈ stale, (lookupList id r.trials).isSome = true) →
     (∃ id ∈ stale, ∃ t, lookupList id r.trials = some t ∧ t.state.isFinished = true) →
     ∃ e, (redisFailStaleTrials r now).1 = .error e) := by
  constructor
  · intro hnd hall
    have hex : ∀ id ∈ stale, ∃ t, lookupList id r.trials = some t ∧
        t.state.isFinished = false := by
      intro id hid
      have h := hall id hid
      revert h
      cases hg : lookupList id r.trials with
      | none => intro h; simp at h
      | some t =>
        intro h
        simp only [Bool.not_eq_eq_eq_not, Bool.not_true] at h
        exact ⟨t, rfl, by simpa using h⟩
    have hmain := redisFailStaleLoop_all_ok now stale r hnd hex
    simp only [redisFailStaleTrials, hst]
    exact ⟨hmain.1, hmain.2.2⟩
  · intro hall hex
    have hall₀ : ∀ id ∈ stale, ∃ t, lookupList id r.trials = some t := by
      intro id hid
      have h := hall id hid
      cases hg : lookupList id r.trials with
      | none => rw [hg] at h; simp at h
      | some t => exact ⟨t, rfl⟩
    obtain ⟨e, he⟩ := redisFailStaleLoop_error_of_finished now stale r hall₀ hex
    refine ⟨e, ?_⟩
    simp only [redisFailStaleTrials, hst]
    exact he

/-- Concrete instantiation of the amended C6 theorem: with one stale
RUNNING trial, fail_stale_trials confirms exactly that trial. -/
theorem fail_stale_confirms_or_raises_witness :
    (redisGetStaleTrialIds (rStaleStudy 100) 100 = .ok [0]) ∧
    ([0] : List Nat).Nodup ∧
    ((redisFailStaleTrials (rStaleStudy 100) 100).1 = .ok [0] ∧
     ∀ id ∈ [0], ∃ t,
       lookupList id (redisFailStaleTrials (rStaleStudy 100) 100).2.trials = some t ∧
       t.state = .fail) :=
  ⟨by decide, by decide,
   (fail_stale_confirms_or_raises (rStaleStudy 100) 100 [0] (by decide)).1
     (by decide) (by decide)⟩

theorem mem_updList {K V : Type} [DecidableEq K] {x : K × V} {k : K} {v : V} :
    ∀ {l : List (K × V)}, x ∈ updList k v l → x = (k, v) ∨ x ∈ l := by
  intro l
  induction l with
  | nil => intro h; simpa [updList] using h
  | cons hd tl ih =>
    intro h
    obtain ⟨k₀, v₀⟩ := hd
    by_cases hk : k = k₀
    · subst hk
      simp only [updList, if_true] at h
      rcases List.mem_cons.mp h with h | h
      · exact Or.inl h
      · exact Or.inr (List.mem_cons_of_mem _ h)
    · simp only [updList, hk, if_false] at h
      rcases List.mem_cons.mp h with h | h
      · exact Or.inr (h ▸ List.mem_cons_self _ _)
      · rcases ih h with h | h
        · exact Or.inl h
        · exact Or.inr (List.mem_cons_of_mem _ h)

theorem lookupList_isSome_of_mem {K V : Type} [DecidableEq K] {k : K} {v : V} :
    ∀ {l : List (K × V)}, (k, v) ∈ l → lookupList k l ≠ none := by
  intro l
  induction l with
  | nil => intro h; simp at h
  | cons hd tl ih =>
    intro h
    obtain ⟨k₀, v₀⟩ := hd
    by_cases hk : k = k₀
    · simp [lookupList, hk]
    · rcases List.mem_cons.mp h with h | h
      · obtain ⟨h1, _⟩ := Prod.mk.injEq _ _ _ _ ▸ h
        exact absurd h1 hk
      · simp only [lookupList, hk, if_false]
        exact ih h

theorem redisUpdateCache_trials (r : RedisStore) (id : Nat) :
    (redisUpdateCache r id).trials = r.trials := by
  unfold redisUpdateCache
  repeat' split
  all_goals simp [apply_ite RedisStore.trials, redisSetBestTrial]

theorem redisUpdateCache_heartbeats (r : RedisStore) (id : Nat) :
    (redisUpdateCache r id).heartbeats = r.heartbeats := by
  unfold redisUpdateCache
  repeat' split
  all_goals simp [apply_ite RedisStore.heartbeats, redisSetBestTrial]

theorem redisUpdateCache_trialCounter (r : RedisStore) (id : Nat) :
    (redisUpdateCache r id).trialCounter = r.trialCounter := by
  unfold redisUpdateCache
  repeat' split
  all_goals simp [apply_ite RedisStore.trialCounter, redisSetBestTrial]

/-- Characterisation of a successful redis set_trial_state: either it was
the rejected-claim early return (store unchanged), or the trial existed
unfinished and only its record changed (new state as requested), the
counter is untouched, and the heartbeat entry is dropped exactly when the
new state is finished. -/
theorem redisSetTrialState_ok_cases {r : RedisStore} {id : Nat} {state : TrialState}
    {now : Int} {b : Bool} {r₁ : RedisStore}
    (h : redisSetTrialState r id state now = .ok (b, r₁)) :
    r₁ = r ∨
    ((∃ t, lookupList id r.trials = some t ∧ t.state.isFinished = false) ∧
     (∀ p ∈ r₁.trials, p ∈ r.trials ∨ p.1 = id) ∧
     (∀ j, j ≠ id → lookupList j r₁.trials = lookupList j r.trials) ∧
     (∃ u, lookupList id r₁.trials = some u ∧ u.state = state) ∧
     r₁.trialCounter = r.trialCounter ∧
     r₁.heartbeats = (if state.isFinished then
       r.heartbeats.filter (fun p => ¬ p.1 = id) else r.heartbeats)) := by
  simp only [redisSetTrialState, bind, Except.bind, pure, Except.pure] at h
  cases hg : lookupList id r.trials with
  | none =>
    simp only [hg] at h
    simp at h
  | some t =>
    simp only [hg] at h
    cases hc : checkUpdatable t.state with
    | error e =>
      simp only [hc] at h
      simp at h
    | ok u =>
      simp only [hc] at h
      have hf : t.state.isFinished = false := by
        by_contra hcon
        rw [checkUpdatable_error (by simpa using hcon)] at hc
        cases hc
      split at h
      · simp only [Except.ok.injEq, Prod.mk.injEq] at h
        exact Or.inl h.2.symm
      · split at h
        next hfin =>
          simp only [Except.ok.injEq, Prod.mk.injEq] at h
          obtain ⟨h₁, h₂⟩ := h
          refine Or.inr ⟨⟨t, rfl, hf⟩, ?_, ?_, ?_, ?_, ?_⟩
          · intro p hp
            rw [← h₂, redisUpdateCache_trials] at hp
            simp only at hp
            rcases mem_updList hp with h | h
            · exact Or.inr (by rw [h])
            · exact Or.inl h
          · intro j hj
            rw [← h₂]
            simp only [redisUpdateCache_trials]
            exact lookupList_updList_ne _ _ hj
          · rw [← h₂]
            simp only [redisUpdateCache_trials]
            exact ⟨_, lookupList_updList_self _ _ _, by simp [apply_ite Trial.state]⟩
          · rw [← h₂]
            simp [redisUpdateCache_trialCounter]
          · rw [← h₂]
            simp only [hfin, if_true]
            simp [redisUpdateCache_heartbeats]
        next hfin =>
          simp only [Except.ok.injEq, Prod.mk.injEq] at h
          obtain ⟨h₁, h₂⟩ := h
          refine Or.inr ⟨⟨t, rfl, hf⟩, ?_, ?_, ?_, ?_, ?_⟩
          · intro p hp
            rw [← h₂] at hp
            simp only at hp
            rcases mem_updList hp with h | h
            · exact Or.inr (by rw [h])
            · exact Or.inl h
          · intro j hj
            rw [← h₂]
            exact lookupList_updList_ne _ _ hj
          · rw [← h₂]
            simp only []
            exact ⟨_, lookupList_updList_self _ _ _, by simp [apply_ite Trial.state]⟩
          · rw [← h₂]
          · rw [← h₂]
            simp [hfin]

/-!
## Heartbeat hygiene (claim C8)
-/

/-- The operations that touch trial records and heartbeats in the redis
backend. -/
inductive ROp where
  | createTrial (template : Option Trial) (now : Int)
  | setTrialState (id : Nat) (st : TrialState) (now : Int)
  | recordHeartbeat (id : Nat) (now : Int)
deriving DecidableEq

/-- Drive the redis store with one operation; a raised exception leaves
the store unchanged (the modelled operations raise before mutating). -/
def runROp (r : RedisStore) : ROp → RedisStore
  | .createTrial template now => redisCreateTrial r template now
  | .setTrialState id st now =>
    match redisSetTrialState r id st now with
    | .ok (_, r₁) => r₁
    | .error _ => r
  | .recordHeartbeat id now =>
    match redisRecordHeartbeat r id now with
    | .ok r₁ => r₁
    | .error _ => r

def runROps (r : RedisStore) : List ROp → RedisStore
  | [] => r
  | op :: rest => runROps (runROp r op) rest

/-- Store sanity: every heartbeat entry points at an existing non-finished
trial, and trial keys stay below the id counter. -/
def rStoreInvB (r : RedisStore) : Bool :=
  r.heartbeats.all (fun p =>
    match lookupList p.1 r.trials with
    | some t => !t.state.isFinished
    | none => false) &&
  r.trials.all (fun p => p.1 < r.trialCounter)

/-- The guard under which the invariant is preserved: record_heartbeat is
only invoked while the trial is not finished (the operation itself never
checks this). -/
def rOpGuardB (r : RedisStore) : ROp → Bool
  | .recordHeartbeat id _ =>
    match lookupList id r.trials with
    | some t => !t.state.isFinished
    | none => true
  | _ => true

def rGuardedRunB : RedisStore → List ROp → Bool
  | _, [] => true
  | r, op :: rest => rOpGuardB r op && rGuardedRunB (runROp r op) rest

theorem rStoreInvB_updateCache (x : RedisStore) (id : Nat) :
    rStoreInvB (redisUpdateCache x id) = rStoreInvB x := by
  simp [rStoreInvB, redisUpdateCache_trials, redisUpdateCache_heartbeats,
    redisUpdateCache_trialCounter]

theorem rStoreInvB_step (r : RedisStore) (op : ROp) (hinv : rStoreInvB r = true)
    (hg : rOpGuardB r op = true) : rStoreInvB (runROp r op) = true := by
  have hinv₀ := hinv
  simp only [rStoreInvB, Bool.and_eq_true, List.all_eq_true] at hinv
  obtain ⟨hhb, hbound⟩ := hinv
  cases op with
  | createTrial template now =>
    have hfresh : lookupList r.trialCounter r.trials = none := by
      cases hl : lookupList r.trialCounter r.trials with
      | none => rfl
      | some t =>
        have hm := mem_of_lookupList hl
        have := hbound _ hm
        simp at this
    have hcore : ∀ (t : Trial),
        rStoreInvB
          { r with trials := updList r.trialCounter t r.trials
                   trialList := r.trialList ++ [r.trialCounter]
                   trialCounter := r.trialCounter + 1 } = true := by
      intro t
      simp only [rStoreInvB, Bool.and_eq_true, List.all_eq_true]
      constructor
      · intro p hp
        have hinvp := hhb p hp
        have hne : p.1 ≠ r.trialCounter := by
          intro hcon
          rw [hcon, hfresh] at hinvp
          simp at hinvp
        rw [lookupList_updList_ne _ _ hne]
        exact hinvp
      · intro p hp
        rcases mem_updList hp with h | h
        · rw [h]
          simp
        · have := hbound p h
          simp only [decide_eq_true_eq] at this ⊢
          omega
    simp only [runROp, redisCreateTrial]
    split
    · rw [rStoreInvB_updateCache]
      exact hcore _
    · exact hcore _
  | setTrialState id st now =>
    simp only [runROp]
    cases hcall : redisSetTrialState r id st now with
    | error e => exact hinv₀
    | ok p =>
      obtain ⟨b, r₁⟩ := p
      rcases redisSetTrialState_ok_cases hcall with h | hprops
      · rw [h]
        exact hinv₀
      · obtain ⟨hex, hmem, hlkne, ⟨u, hlkid, hust⟩, hcnt, hhb₁⟩ := hprops
        simp only [rStoreInvB, Bool.and_eq_true, List.all_eq_true]
        constructor
        · intro p hp
          by_cases hfin : st.isFinished = true
          · rw [hhb₁] at hp
            simp only [hfin, if_true] at hp
            have hp₁ := List.mem_filter.mp hp
            have hpne : p.1 ≠ id := by simpa using hp₁.2
            have hinvp := hhb p hp₁.1
            rw [hlkne p.1 hpne]
            exact hinvp
          · rw [hhb₁] at hp
            simp only [hfin, if_false] at hp
            have hinvp := hhb p hp
            by_cases hpid : p.1 = id
            · simp only [hpid]
              rw [hlkid]
              simp only [hust]
              simpa using hfin
            · rw [hlkne p.1 hpid]
              exact hinvp
        · intro p hp
          rcases hmem p hp with h | h
          · have := hbound p h
            rw [hcnt]
            exact this
          · rw [hcnt]
            obtain ⟨t, hlt, _⟩ := hex
            have hm := mem_of_lookupList hlt
            have := hbound _ hm
            simp only [decide_eq_true_eq] at this ⊢
            omega
  | recordHeartbeat id now =>
    simp only [runROp]
    cases hcall : redisRecordHeartbeat r id now with
    | error e => exact hinv₀
    | ok r₁ =>
      simp only [redisRecordHeartbeat] at hcall
      cases hl : lookupList id r.trials with
      | none =>
        rw [hl] at hcall
        simp at hcall
      | some t =>
        rw [hl] at hcall
        simp only [Except.ok.injEq] at hcall
        rw [← hcall]
        simp only [rStoreInvB, Bool.and_eq_true, List.all_eq_true]
        constructor
        · intro p hp
          rcases mem_updList hp with h | h
          · rw [h]
            simp only []
            rw [hl]
            simpa [rOpGuardB, hl] using hg
          · exact hhb p h
        · intro p hp
          exact hbound p hp

theorem rStoreInvB_run (r : RedisStore) (ops : List ROp) (hinv : rStoreInvB r = true)
    (hg : rGuardedRunB r ops = true) : rStoreInvB (runROps r ops) = true := by
  induction ops generalizing r with
  | nil => exact hinv
  | cons op rest ih =>
    simp only [rGuardedRunB, Bool.and_eq_true] at hg
    exact ih (runROp r op) (rStoreInvB_step r op hinv hg.1) hg.2

/-- C8 counterexample: record_heartbeat never checks the trial state, so a
heartbeat-related call after a trial finishes re-adds a heartbeat entry
for the finished trial. -/
def rC8Ops : List ROp :=
  [.createTrial none 0, .setTrialState 0 .complete 1, .recordHeartbeat 0 2]

theorem heartbeat_relingers_after_finish :
    (match lookupList 0 (runROps rEmptyFiveNone rC8Ops).trials with
     | some t => t.state.isFinished
     | none => false) = true ∧
    lookupList 0 (runROps rEmptyFiveNone rC8Ops).heartbeats = some 2 := by decide

/-- C8 (amended): in every run in which record_heartbeat is only invoked
on trials that are not yet finished, a trial that is in a finished state
has no entry in the heartbeat map, and consequently is never seen by a
staleness scan.  (Without that proviso the property fails: record_heartbeat
does not check the trial state and re-adds an entry for a finished trial.) -/
theorem finished_trial_has_no_heartbeat (r : RedisStore) (ops : List ROp)
    (hinv : rStoreInvB r = true) (hg : rGuardedRunB r ops = true) :
    (∀ id t, lookupList id (runROps r ops).trials = some t →
       t.state.isFinished = true → lookupList id (runROps r ops).heartbeats = none) ∧
    (∀ id t T stale, lookupList id (runROps r ops).trials = some t →
       t.state.isFinished = true →
       redisGetStaleTrialIds (runROps r ops) T = .ok stale → id ∉ stale) := by
  have hrun := rStoreInvB_run r ops hinv hg
  simp only [rStoreInvB, Bool.and_eq_true, List.all_eq_true] at hrun
  obtain ⟨hhb, _⟩ := hrun
  have main : ∀ id t, lookupList id (runROps r ops).trials = some t →
      t.state.isFinished = true → lookupList id (runROps r ops).heartbeats = none := by
    intro id t hlt hfin
    cases hl : lookupList id (runROps r ops).heartbeats with
    | none => rfl
    | some hb =>
      have hm := mem_of_lookupList hl
      have hthis := hhb _ hm
      simp only [hlt] at hthis
      rw [hfin] at hthis
      simp at hthis
  refine ⟨main, ?_⟩
  intro id t T stale hlt hfin hscan hmem
  simp only [redisGetStaleTrialIds] at hscan
  cases hI : (runROps r ops).heartbeatInterval with
  | none =>
    rw [hI] at hscan
    simp at hscan
  | some interval =>
    rw [hI] at hscan
    simp only [Except.ok.injEq] at hscan
    rw [← hscan] at hmem
    obtain ⟨p, hp, hpid⟩ := List.mem_map.mp hmem
    obtain ⟨k, hb⟩ := p
    simp only at hpid
    have hpfil := List.mem_filter.mp hp
    have hnone := main id t hlt hfin
    rw [hpid] at hpfil
    exact lookupList_isSome_of_mem hpfil.1 hnone

/-- A guarded run: heartbeat recorded while RUNNING, then the finish. -/
def rC8GoodOps : List ROp :=
  [.createTrial none 0, .recordHeartbeat 0 1, .setTrialState 0 .complete 2]

/-- Concrete instantiation of the amended C8 theorem. -/
theorem finished_trial_has_no_heartbeat_witness :
    (rStoreInvB rEmptyFiveNone = true) ∧
    (rGuardedRunB rEmptyFiveNone rC8GoodOps = true) ∧
    (∀ id t, lookupList id (runROps rEmptyFiveNone rC8GoodOps).trials = some t →
       t.state.isFinished = true →
       lookupList id (runROps rEmptyFiveNone rC8GoodOps).heartbeats = none) :=
  ⟨by decide, by decide,
   (finished_trial_has_no_heartbeat rEmptyFiveNone rC8GoodOps (by decide) (by decide)).1⟩

/-!
## Incremental best trial versus full rescan (claim C3)
-/

/-- Value comparison oriented by study direction: a is at least as good as
b (MAXIMIZE reads greater-or-equal, otherwise less-or-equal, matching the
else-branch of both _update_cache implementations). -/
def dirGe (dir : StudyDirection) (a b : Int) : Prop :=
  if dir = .maximize then b ≤ a else a ≤ b

theorem maxByValueFirst_cons (t u : Trial) (rest : List Trial) :
    maxByValueFirst t (u :: rest) =
      maxByValueFirst (if trialKey t < trialKey u then u else t) rest := rfl

theorem minByValueFirst_cons (t u : Trial) (rest : List Trial) :
    minByValueFirst t (u :: rest) =
      minByValueFirst (if trialKey u < trialKey t then u else t) rest := rfl

theorem maxByValueFirst_mem (t : Trial) (rest : List Trial) :
    maxByValueFirst t rest ∈ t :: rest := by
  induction rest generalizing t with
  | nil => simp [maxByValueFirst]
  | cons u rest ih =>
    rw [maxByValueFirst_cons]
    rcases List.mem_cons.mp (ih (if trialKey t < trialKey u then u else t)) with h | h
    · rw [h]
      split
      · simp
      · simp
    · simp [List.mem_cons_of_mem, h]

theorem minByValueFirst_mem (t : Trial) (rest : List Trial) :
    minByValueFirst t rest ∈ t :: rest := by
  induction rest generalizing t with
  | nil => simp [minByValueFirst]
  | cons u rest ih =>
    rw [minByValueFirst_cons]
    rcases List.mem_cons.mp (ih (if trialKey u < trialKey t then u else t)) with h | h
    · rw [h]
      split
      · simp
      · simp
    · simp [List.mem_cons_of_mem, h]

theorem maxByValueFirst_ge (t : Trial) (rest : List Trial) :
    ∀ u ∈ t :: rest, trialKey u ≤ trialKey (maxByValueFirst t rest) := by
  induction rest generalizing t with
  | nil =>
    intro u hu
    rcases List.mem_cons.mp hu with h | h
    · rw [h]
      simp [maxByValueFirst]
    · simp at h
  | cons w rest ih =>
    intro u hu
    rw [maxByValueFirst_cons]
    by_cases hcmp : trialKey t < trialKey w
    · rw [if_pos hcmp]
      rcases List.mem_cons.mp hu with h | h
      · rw [h]
        exact le_trans (le_of_lt hcmp) (ih w w (by simp))
      · rcases List.mem_cons.mp h with h | h
        · rw [h]
          exact ih w w (by simp)
        · exact ih w u (List.mem_cons_of_mem _ h)
    · rw [if_neg hcmp]
      rcases List.mem_cons.mp hu with h | h
      · rw [h]
        exact ih t t (by simp)
      · rcases List.mem_cons.mp h with h | h
        · rw [h]
          exact le_trans (not_lt.mp hcmp) (ih t t (by simp))
        · exact ih t u (List.mem_cons_of_mem _ h)

theorem minByValueFirst_le (t : Trial) (rest : List Trial) :
    ∀ u ∈ t :: rest, trialKey (minByValueFirst t rest) ≤ trialKey u := by
  induction rest generalizing t with
  | nil =>
    intro u hu
    rcases List.mem_cons.mp hu with h | h
    · rw [h]
      simp [minByValueFirst]
    · simp at h
  | cons w rest ih =>
    intro u hu
    rw [minByValueFirst_cons]
    by_cases hcmp : trialKey w < trialKey t
    · rw [if_pos hcmp]
      rcases List.mem_cons.mp hu with h | h
      · rw [h]
        exact le_trans (ih w w (by simp)) (le_of_lt hcmp)
      · rcases List.mem_cons.mp h with h | h
        · rw [h]
          exact ih w w (by simp)
        · exact ih w u (List.mem_cons_of_mem _ h)
    · rw [if_neg hcmp]
      rcases List.mem_cons.mp hu with h | h
      · rw [h]
        exact ih t t (by simp)
      · rcases List.mem_cons.mp h with h | h
        · rw [h]
          exact le_trans (ih t t (by simp)) (not_lt.mp hcmp)
        · exact ih t u (List.mem_cons_of_mem _ h)

/-- The best-pointer component of the best-trial invariant: an absent
pointer means no COMPLETE trial exists; a present pointer names a COMPLETE
trial whose value is at least as good as that of every COMPLETE trial. -/
def BestPointerOk (dir : StudyDirection) (trials : List Trial) : Option Nat → Prop
  | none => ∀ u ∈ trials, u.state ≠ .complete
  | some b => ∃ t, trials[b]? = some t ∧ t.state = .complete ∧
      ∀ u ∈ trials, u.state = .complete → dirGe dir (trialKey t) (trialKey u)

/-- The best-trial invariant of the completion runs: the direction list is
the singleton study direction, every COMPLETE trial carries its value, and
the best pointer is sound and optimal. -/
def BestInv (dir : StudyDirection) (s : MemStore) : Prop :=
  s.directions = [dir] ∧
  (∀ u ∈ s.trials, u.state = .complete → u.value = some (trialKey u)) ∧
  BestPointerOk dir s.trials s.bestTrialId

theorem rescan_of_bestInv {dir : StudyDirection} {s : MemStore} (h : BestInv dir s) :
    match s.bestTrialId, rescanBestTrial dir s.trials with
    | none, none => True
    | some b, some r => ∃ t, s.trials[b]? = some t ∧ t.state = .complete ∧
        t.value = r.value
    | _, _ => False := by
  obtain ⟨hdir, hval, hbest⟩ := h
  cases hb : s.bestTrialId with
  | none =>
    rw [hb] at hbest
    simp only [BestPointerOk] at hbest
    have hfil : s.trials.filter (fun u => u.state = .complete) = [] := by
      rw [List.filter_eq_nil_iff]
      intro u hu
      simpa using hbest u hu
    simp [rescanBestTrial, hfil]
  | some b =>
    rw [hb] at hbest
    simp only [BestPointerOk] at hbest
    obtain ⟨t, hgt, htc, hopt⟩ := hbest
    have htmem : t ∈ s.trials := List.getElem?_mem hgt
    have htfil : t ∈ s.trials.filter (fun u => u.state = .complete) :=
      List.mem_filter.mpr ⟨htmem, by simp [htc]⟩
    cases hfil : s.trials.filter (fun u => u.state = .complete) with
    | nil =>
      rw [hfil] at htfil
      simp at htfil
    | cons c rest =>
      rw [hfil] at htfil
      have hrescan : rescanBestTrial dir s.trials =
          some (if dir = .maximize then maxByValueFirst c rest
                else minByValueFirst c rest) := by
        simp [rescanBestTrial, hfil]
      set rbest := if dir = .maximize then maxByValueFirst c rest else minByValueFirst c rest
        with hrb
      have hrmem : rbest ∈ c :: rest := by
        rw [hrb]
        split
        · exact maxByValueFirst_mem c rest
        · exact minByValueFirst_mem c rest
      have hrmem₁ : rbest ∈ s.trials.filter (fun u => u.state = .complete) := by
        rw [hfil]
        exact hrmem
      have hrtrials : rbest ∈ s.trials := (List.mem_filter.mp hrmem₁).1
      have hrcomp : rbest.state = .complete := by
        simpa using (List.mem_filter.mp hrmem₁).2
      have hkey : trialKey t = trialKey rbest := by
        have h1 := hopt rbest hrtrials hrcomp
        rw [hrb] at hrmem ⊢
        revert h1
        simp only [dirGe]
        split
        next hmax =>
          intro h1
          have h2 := maxByValueFirst_ge c rest t (by simpa [hmax, hrb] using htfil)
          exact le_antisymm (by simpa [hmax, hrb] using h2) (by simpa [hmax, hrb] using h1)
        next hmax =>
          intro h1
          have h2 := minByValueFirst_le c rest t (by simpa [hmax, hrb] using htfil)
          exact le_antisymm (by simpa [hmax, hrb] using h1) (by simpa [hmax, hrb] using h2)
      rw [hrescan]
      refine ⟨t, hgt, htc, ?_⟩
      rw [hval t htmem htc, hval rbest hrtrials hrcomp, hkey]

theorem memGetTrial_ok {s : MemStore} {i : Nat} {t : Trial}
    (h : memGetTrial s i = .ok t) : s.trials[i]? = some t := by
  simp only [memGetTrial] at h
  cases hgi : s.trials[i]? with
  | none =>
    rw [hgi] at h
    simp at h
  | some w =>
    rw [hgi] at h
    injection h with h
    exact congrArg some h

theorem checkUpdatable_ok_inv {st : TrialState} {u : Unit}
    (h : checkUpdatable st = .ok u) : st.isFinished = false := by
  by_contra hcon
  rw [checkUpdatable_error (by simpa using hcon)] at h
  cases h

theorem dirGe_refl (dir : StudyDirection) (a : Int) : dirGe dir a a := by
  simp only [dirGe]
  split <;> exact le_refl a

theorem TrialState.not_complete_of_not_finished {st : TrialState}
    (h : st.isFinished = false) : st ≠ .complete := by
  cases st <;> simp_all [TrialState.isFinished]

/-- The record stored by a completion: values reported, state COMPLETE,
completion time stamped. -/
def completedRecord (t : Trial) (v : Int) (now : Int) : Trial :=
  { t with values := some [v], state := .complete, datetimeComplete := some now }

theorem bestInv_updateCache {dir : StudyDirection} {s : MemStore} {i : Nat} {t tC : Trial}
    (hdir : s.directions = [dir])
    (hval : ∀ u ∈ s.trials, u.state = .complete → u.value = some (trialKey u))
    (hbest : BestPointerOk dir s.trials s.bestTrialId)
    (hgt : s.trials[i]? = some t) (hnotc : t.state ≠ .complete)
    (htCc : tC.state = .complete) (htCv : tC.value = some (trialKey tC)) :
    BestInv dir (memUpdateCache (memSetTrialRec s i tC) i) := by
  have hlen : i < s.trials.length := by
    by_contra hcon
    rw [List.getElem?_eq_none (by omega)] at hgt
    cases hgt
  have hgtC : (memSetTrialRec s i tC).trials[i]? = some tC := by
    simp only [memSetTrialRec]
    exact List.getElem?_set_self (by simpa using hlen)
  have hmem₂ : ∀ u ∈ (memSetTrialRec s i tC).trials, u = tC ∨ u ∈ s.trials := by
    intro u hu
    rcases List.mem_or_eq_of_mem_set hu with h | h
    · exact Or.inr h
    · exact Or.inl h
  have hval₂ : ∀ u ∈ (memSetTrialRec s i tC).trials, u.state = .complete →
      u.value = some (trialKey u) := by
    intro u hu huc
    rcases hmem₂ u hu with h | h
    · rw [h]
      exact htCv
    · exact hval u h huc
  have hdl : ¬ ((memSetTrialRec s i tC).directions.length > 1) := by
    simp [memSetTrialRec, hdir]
  cases hbid : s.bestTrialId with
  | none =>
    rw [hbid] at hbest
    simp only [BestPointerOk] at hbest
    have hnone : (memSetTrialRec s i tC).bestTrialId = none := hbid
    have hup : memUpdateCache (memSetTrialRec s i tC) i =
        { memSetTrialRec s i tC with bestTrialId := some i } := by
      simp only [memUpdateCache, hgtC, hnone]
      rw [if_neg (by simp [htCc])]
    rw [hup]
    refine ⟨hdir, hval₂, ?_⟩
    show BestPointerOk dir (memSetTrialRec s i tC).trials (some i)
    simp only [BestPointerOk]
    refine ⟨tC, hgtC, htCc, ?_⟩
    intro u hu huc
    rcases hmem₂ u hu with h | h
    · rw [h]
      exact dirGe_refl dir _
    · exact absurd huc (hbest u h)
  | some b =>
    rw [hbid] at hbest
    simp only [BestPointerOk] at hbest
    obtain ⟨tb, hgb, htbc, hopt⟩ := hbest
    have hbne : i ≠ b := by
      intro hcon
      rw [← hcon, hgt] at hgb
      injection hgb with hgb
      exact hnotc (by rw [hgb]; exact htbc)
    have hgb₂ : (memSetTrialRec s i tC).trials[b]? = some tb := by
      simp only [memSetTrialRec]
      rw [List.getElem?_set_ne hbne]
      exact hgb
    have hsome : (memSetTrialRec s i tC).bestTrialId = some b := hbid
    have htbv : tb.value = some (trialKey tb) := hval tb (List.getElem?_mem hgb) htbc
    have hhead : (memSetTrialRec s i tC).directions.headD .notSet = dir := by
      simp [memSetTrialRec, hdir]
    have hkeep : (∀ u ∈ s.trials, u.state = .complete →
        dirGe dir (trialKey tb) (trialKey u)) →
        dirGe dir (trialKey tb) (trialKey tC) →
        BestPointerOk dir (memSetTrialRec s i tC).trials (some b) := by
      intro hopt₀ htbC
      simp only [BestPointerOk]
      refine ⟨tb, hgb₂, htbc, ?_⟩
      intro u hu huc
      rcases hmem₂ u hu with h | h
      · rw [h]
        exact htbC
      · exact hopt₀ u h huc
    have hnewopt : (if dir = .maximize then trialKey tb < trialKey tC
        else trialKey tC < trialKey tb) →
        BestPointerOk dir (memSetTrialRec s i tC).trials (some i) := by
      intro hcmp
      simp only [BestPointerOk]
      refine ⟨tC, hgtC, htCc, ?_⟩
      intro u hu huc
      rcases hmem₂ u hu with h | h
      · rw [h]
        exact dirGe_refl dir _
      · have hold := hopt u h huc
        revert hcmp hold
        simp only [dirGe]
        split
        · intro hcmp hold
          omega
        · intro hcmp hold
          omega
    simp only [memUpdateCache, hgtC, hsome]
    rw [if_neg (by simp [htCc]), if_neg hdl]
    simp only [hgb₂, htbv, htCv, hhead]
    by_cases hdm : dir = .maximize
    · rw [if_pos hdm]
      by_cases hlt : trialKey tb < trialKey tC
      · rw [if_pos hlt]
        exact ⟨hdir, hval₂, hnewopt (by rw [if_pos hdm]; exact hlt)⟩
      · rw [if_neg hlt]
        refine ⟨hdir, hval₂, ?_⟩
        show BestPointerOk dir (memSetTrialRec s i tC).trials (memSetTrialRec s i tC).bestTrialId
        rw [hsome]
        exact hkeep hopt (by simp only [dirGe]; rw [if_pos hdm]; omega)
    · rw [if_neg hdm]
      by_cases hlt : trialKey tb > trialKey tC
      · rw [if_pos hlt]
        exact ⟨hdir, hval₂, hnewopt (by rw [if_neg hdm]; omega)⟩
      · rw [if_neg hlt]
        refine ⟨hdir, hval₂, ?_⟩
        show BestPointerOk dir (memSetTrialRec s i tC).trials (memSetTrialRec s i tC).bestTrialId
        rw [hsome]
        exact hkeep hopt (by simp only [dirGe]; rw [if_neg hdm]; omega)

theorem bestInv_completeTrial {dir : StudyDirection} {s s₁ : MemStore} {i : Nat} {v : Int}
    (hinv : BestInv dir s) (h : completeTrial s i v = .ok s₁) : BestInv dir s₁ := by
  obtain ⟨hdir, hval, hbest⟩ := hinv
  simp only [completeTrial, bind, Except.bind] at h
  cases hv : memSetTrialValues s i [v] with
  | error e =>
    simp only [hv] at h
    simp at h
  | ok s₂ =>
    simp only [hv] at h
    cases hs : memSetTrialState s₂ i .complete 0 with
    | error e =>
      simp only [hs] at h
      simp at h
    | ok p =>
      simp only [hs] at h
      obtain ⟨b₀, s₃⟩ := p
      simp only [pure, Except.pure, Except.ok.injEq] at h
      subst h
      simp only [memSetTrialValues, bind, Except.bind] at hv
      cases hg : memGetTrial s i with
      | error e =>
        simp only [hg] at hv
        simp at hv
      | ok t =>
        simp only [hg] at hv
        cases hc : checkUpdatable t.state with
        | error e =>
          simp only [hc] at hv
          simp at hv
        | ok u =>
          simp only [hc] at hv
          simp only [pure, Except.pure, Except.ok.injEq] at hv
          have hgt := memGetTrial_ok hg
          have hnf := checkUpdatable_ok_inv hc
          have hlen : i < s.trials.length := by
            by_contra hcon
            rw [List.getElem?_eq_none (by omega)] at hgt
            cases hgt
          subst hv
          simp only [memSetTrialState, bind, Except.bind] at hs
          have hgt₂ : (memSetTrialRec s i { t with values := some [v] }).trials[i]? =
              some { t with values := some [v] } := by
            simp only [memSetTrialRec]
            exact List.getElem?_set_self (by simpa using hlen)
          have hg₂ : memGetTrial (memSetTrialRec s i { t with values := some [v] }) i =
              .ok { t with values := some [v] } := by
            simp only [memGetTrial, hgt₂]
          simp only [hg₂] at hs
          rw [@checkUpdatable_ok (({ t with values := some [v] } : Trial).state)
            (by simpa using hnf)] at hs
          simp only at hs
          have hnotw : ¬ (TrialState.complete = TrialState.running ∧
              ¬ ({ t with values := some [v] } : Trial).state = TrialState.waiting) := by
            simp
          rw [if_neg hnotw] at hs
          simp only [TrialState.isFinished, if_true, pure, Except.pure, Except.ok.injEq,
            Prod.mk.injEq] at hs
          obtain ⟨hb₀, hs₃⟩ := hs
          subst hs₃
          show BestInv dir (memUpdateCache (memSetTrialRec
            (memSetTrialRec s i { t with values := some [v] }) i (completedRecord t v 0)) i)
          have hsetset : memSetTrialRec (memSetTrialRec s i { t with values := some [v] }) i
              (completedRecord t v 0) = memSetTrialRec s i (completedRecord t v 0) := by
            simp [memSetTrialRec, List.set_set]
          rw [hsetset]
          exact bestInv_updateCache hdir hval hbest hgt
            (TrialState.not_complete_of_not_finished hnf) rfl rfl

theorem bestInv_runCompletions {dir : StudyDirection} :
    ∀ (evs : List (Nat × Int)) (s s₁ : MemStore), BestInv dir s →
    runCompletions s evs = .ok s₁ → BestInv dir s₁ := by
  intro evs
  induction evs with
  | nil =>
    intro s s₁ hinv h
    simp only [runCompletions] at h
    injection h with h
    rw [← h]
    exact hinv
  | cons ev rest ih =>
    intro s s₁ hinv h
    obtain ⟨i, v⟩ := ev
    simp only [runCompletions, bind, Except.bind] at h
    cases hc : completeTrial s i v with
    | error e =>
      simp only [hc] at h
      simp at h
    | ok s₂ =>
      simp only [hc] at h
      exact ih s₂ s₁ (bestInv_completeTrial hinv hc) h

theorem bestInv_initStudy (dir : StudyDirection) (n : Nat) :
    BestInv dir (initStudy dir n) := by
  refine ⟨rfl, ?_, ?_⟩
  · intro u hu huc
    simp only [initStudy, List.mem_map] at hu
    obtain ⟨k, _, hk⟩ := hu
    rw [← hk] at huc
    simp [freshRunningTrial] at huc
  · show BestPointerOk dir _ none
    simp only [BestPointerOk]
    intro u hu
    simp only [initStudy, List.mem_map] at hu
    obtain ⟨k, _, hk⟩ := hu
    rw [← hk]
    simp [freshRunningTrial]

/-- C3 counterexample: two trials completing out of number order with the
same MAXIMIZE value; the incremental pointer keeps the first-completed
trial (number 1) while the full rescan returns the lowest-numbered trial
(number 0), so the incrementally maintained best trial is not the trial
returned by the rescan. -/
def c3CounterStore : MemStore :=
  match runCompletions (initStudy .maximize 2) [(1, 5), (0, 5)] with
  | .ok s => s
  | .error _ => initStudy .maximize 0

theorem incremental_best_differs_from_rescan :
    runCompletions (initStudy .maximize 2) [(1, 5), (0, 5)] = .ok c3CounterStore ∧
    c3CounterStore.bestTrialId = some 1 ∧
    (rescanBestTrial .maximize c3CounterStore.trials).map Trial.number = some 0 ∧
    ¬ (c3CounterStore.bestTrialId.bind (fun b => c3CounterStore.trials[b]?) =
        rescanBestTrial .maximize c3CounterStore.trials) := by decide

/-- C3 (amended): for every single-objective study direction and every
completion order, the incrementally maintained best-trial pointer names a
COMPLETE trial whose objective value equals the value of the trial found
by the full rescan over all COMPLETE trials; on ties the two may be
different trials (the tracker keeps the first-completed optimum, the
rescan the lowest-numbered one), and both are empty exactly when no trial
is COMPLETE. -/
theorem incremental_best_matches_rescan_value (dir : StudyDirection) (n : Nat)
    (evs : List (Nat × Int)) (s : MemStore)
    (h : runCompletions (initStudy dir n) evs = .ok s) :
    match s.bestTrialId, rescanBestTrial dir s.trials with
    | none, none => True
    | some b, some r => ∃ t, s.trials[b]? = some t ∧ t.state = .complete ∧
        t.value = r.value
    | _, _ => False :=
  rescan_of_bestInv (bestInv_runCompletions evs _ s (bestInv_initStudy dir n) h)

/-- The store produced by a sample completion run. -/
def c3WitnessStore : MemStore :=
  match runCompletions (initStudy .maximize 2) [(0, 3), (1, 7)] with
  | .ok s => s
  | .error _ => initStudy .maximize 0

/-- Concrete instantiation of the amended C3 theorem. -/
theorem incremental_best_matches_rescan_value_witness :
    (runCompletions (initStudy .maximize 2) [(0, 3), (1, 7)] = .ok c3WitnessStore) ∧
    (match c3WitnessStore.bestTrialId, rescanBestTrial .maximize c3WitnessStore.trials with
     | none, none => True
     | some b, some r => ∃ t, c3WitnessStore.trials[b]? = some t ∧ t.state = .complete ∧
         t.value = r.value
     | _, _ => False) :=
  ⟨by decide,
   incremental_best_matches_rescan_value .maximize 2 [(0, 3), (1, 7)] c3WitnessStore
     (by decide)⟩

/-- In the fork every non-value write flushes immediately, so a reachable
pending buffer carries at most buffered objective values: every other
field of the _TrialUpdate is empty. -/
def ValuesOnly (u : TrialUpdate) : Prop :=
  u.state = none ∧ u.intermediateValues = [] ∧ u.userAttrs = [] ∧ u.systemAttrs = [] ∧
  u.params = [] ∧ u.distributions = [] ∧ u.datetimeComplete = none ∧ u.datetimeStart = none

/-- Applying a values-only buffer to a backend record only overwrites the
values field. -/
theorem backendUpdateTrial_valuesOnly {t : Trial} {u : TrialUpdate} (h : ValuesOnly u) :
    backendUpdateTrial t u =
      { t with values := match u.values with
               | some vs => some vs
               | none => t.values } := by
  obtain ⟨h1, h2, h3, h4, h5, h6, h7, h8⟩ := h
  simp [backendUpdateTrial, h1, h2, h3, h4, h5, h6, h7, h8, mergeList]

/-- The buffered delta applied to the backend record reproduces the cached
snapshot. -/
def BufferOk (backendTrial cachedTrial : Trial) : Option TrialUpdate → Prop
  | none => backendTrial = cachedTrial
  | some u => ValuesOnly u ∧ backendUpdateTrial backendTrial u = cachedTrial

/-- The simulation relation between the caching wrapper and the uncached
Backend: equal snapshots and registries, a RUNNING cached state, and a
buffer that accounts exactly for the cached-versus-backend difference. -/
def CInv (st : CachedState) (d : DirectState) : Prop :=
  st.cachedTrial = d.trial ∧
  st.cachedRegistry = d.registry ∧
  st.backendRegistry = d.registry ∧
  st.cachedTrial.state = .running ∧
  BufferOk st.backendTrial st.cachedTrial st.updates

theorem cinv_step_values {st : CachedState} {d : DirectState} (hinv : CInv st d)
    (vs : List Int) :
    match cachedSetTrialValues st vs, directApplyWrite d (.values vs) with
    | .error e₁, .error e₂ => e₁ = e₂
    | .ok (st₁, _), .ok d₁ => CInv st₁ d₁
    | _, _ => False := by
  obtain ⟨hct, hcr, hbr, hrun, hbuf⟩ := hinv
  have hupd : checkUpdatable st.cachedTrial.state = .ok () := by
    rw [hrun]
    rfl
  have hupd₂ : checkUpdatable d.trial.state = .ok () := by
    rw [← hct, hrun]
    rfl
  simp only [cachedSetTrialValues, directApplyWrite, bind, Except.bind, pure, Except.pure,
    hupd, hupd₂]
  refine ⟨?_, hcr, hbr, ?_, ?_⟩
  · rw [hct]
    rfl
  · exact hrun
  · cases hu : st.updates with
    | none =>
      rw [hu] at hbuf
      simp only [BufferOk] at hbuf ⊢
      simp only [Option.getD]
      constructor
      · constructor <;> simp
      · rw [backendUpdateTrial_valuesOnly (by constructor <;> simp)]
        rw [hbuf]
    | some u =>
      rw [hu] at hbuf
      simp only [BufferOk] at hbuf ⊢
      obtain ⟨hvo, hbe⟩ := hbuf
      obtain ⟨h1, h2, h3, h4, h5, h6, h7, h8⟩ := hvo
      simp only [Option.getD]
      constructor
      · exact ⟨h1, h2, h3, h4, h5, h6, h7, h8⟩
      · have hvo₁ : ValuesOnly { u with values := some vs } :=
          ⟨h1, h2, h3, h4, h5, h6, h7, h8⟩
        rw [backendUpdateTrial_valuesOnly hvo₁]
        rw [backendUpdateTrial_valuesOnly ⟨h1, h2, h3, h4, h5, h6, h7, h8⟩] at hbe
        rw [← hbe]

theorem cinv_step_intermediate {st : CachedState} {d : DirectState} (hinv : CInv st d)
    (k x : Int) :
    match cachedSetTrialIntermediateValue st k x, directApplyWrite d (.intermediate k x) with
    | .error e₁, .error e₂ => e₁ = e₂
    | .ok (st₁, _), .ok d₁ => CInv st₁ d₁
    | _, _ => False := by
  obtain ⟨hct, hcr, hbr, hrun, hbuf⟩ := hinv
  have hupd : checkUpdatable st.cachedTrial.state = .ok () := by
    rw [hrun]
    rfl
  have hupd₂ : checkUpdatable d.trial.state = .ok () := by
    rw [← hct, hrun]
    rfl
  simp only [cachedSetTrialIntermediateValue, directApplyWrite, bind, Except.bind,
    pure, Except.pure, hupd, hupd₂]
  cases hu : st.updates with
  | none =>
    rw [hu] at hbuf
    simp only [BufferOk] at hbuf
    simp only [Option.getD, flushTrial]
    refine ⟨?_, hcr, hbr, hrun, ?_⟩
    · rw [hct]
      rfl
    · simp only [BufferOk]
      rw [hbuf]
      rfl
  | some u =>
    rw [hu] at hbuf
    simp only [BufferOk] at hbuf
    obtain ⟨⟨h1, h2, h3, h4, h5, h6, h7, h8⟩, hbe⟩ := hbuf
    obtain ⟨us, uv, uiv, uua, usa, up, ud, udc, uds⟩ := u
    simp only at h1 h2 h3 h4 h5 h6 h7 h8
    subst h1 h2 h3 h4 h5 h6 h7 h8
    simp only [Option.getD, flushTrial]
    refine ⟨?_, hcr, hbr, hrun, ?_⟩
    · rw [hct]
      rfl
    · simp only [BufferOk]
      rw [← hbe]
      cases uv <;> rfl

theorem cinv_step_userAttr {st : CachedState} {d : DirectState} (hinv : CInv st d)
    (key : String) (x : Int) :
    match cachedSetTrialUserAttr st key x, directApplyWrite d (.userAttr key x) with
    | .error e₁, .error e₂ => e₁ = e₂
    | .ok (st₁, _), .ok d₁ => CInv st₁ d₁
    | _, _ => False := by
  obtain ⟨hct, hcr, hbr, hrun, hbuf⟩ := hinv
  have hupd : checkUpdatable st.cachedTrial.state = .ok () := by
    rw [hrun]
    rfl
  have hupd₂ : checkUpdatable d.trial.state = .ok () := by
    rw [← hct, hrun]
    rfl
  simp only [cachedSetTrialUserAttr, directApplyWrite, bind, Except.bind,
    pure, Except.pure, hupd, hupd₂]
  cases hu : st.updates with
  | none =>
    rw [hu] at hbuf
    simp only [BufferOk] at hbuf
    simp only [Option.getD, flushTrial]
    refine ⟨?_, hcr, hbr, hrun, ?_⟩
    · rw [hct]
      rfl
    · simp only [BufferOk]
      rw [hbuf]
      rfl
  | some u =>
    rw [hu] at hbuf
    simp only [BufferOk] at hbuf
    obtain ⟨⟨h1, h2, h3, h4, h5, h6, h7, h8⟩, hbe⟩ := hbuf
    obtain ⟨us, uv, uiv, uua, usa, up, ud, udc, uds⟩ := u
    simp only at h1 h2 h3 h4 h5 h6 h7 h8
    subst h1 h2 h3 h4 h5 h6 h7 h8
    simp only [Option.getD, flushTrial]
    refine ⟨?_, hcr, hbr, hrun, ?_⟩
    · rw [hct]
      rfl
    · simp only [BufferOk]
      rw [← hbe]
      cases uv <;> rfl

theorem cinv_step_systemAttr {st : CachedState} {d : DirectState} (hinv : CInv st d)
    (key : String) (x : Int) :
    match cachedSetTrialSystemAttr st key x, directApplyWrite d (.systemAttr key x) with
    | .error e₁, .error e₂ => e₁ = e₂
    | .ok (st₁, _), .ok d₁ => CInv st₁ d₁
    | _, _ => False := by
  obtain ⟨hct, hcr, hbr, hrun, hbuf⟩ := hinv
  have hupd : checkUpdatable st.cachedTrial.state = .ok () := by
    rw [hrun]
    rfl
  have hupd₂ : checkUpdatable d.trial.state = .ok () := by
    rw [← hct, hrun]
    rfl
  simp only [cachedSetTrialSystemAttr, directApplyWrite, bind, Except.bind,
    pure, Except.pure, hupd, hupd₂]
  cases hu : st.updates with
  | none =>
    rw [hu] at hbuf
    simp only [BufferOk] at hbuf
    simp only [Option.getD, flushTrial]
    refine ⟨?_, hcr, hbr, hrun, ?_⟩
    · rw [hct]
      rfl
    · simp only [BufferOk]
      rw [hbuf]
      rfl
  | some u =>
    rw [hu] at hbuf
    simp only [BufferOk] at hbuf
    obtain ⟨⟨h1, h2, h3, h4, h5, h6, h7, h8⟩, hbe⟩ := hbuf
    obtain ⟨us, uv, uiv, uua, usa, up, ud, udc, uds⟩ := u
    simp only at h1 h2 h3 h4 h5 h6 h7 h8
    subst h1 h2 h3 h4 h5 h6 h7 h8
    simp only [Option.getD, flushTrial]
    refine ⟨?_, hcr, hbr, hrun, ?_⟩
    · rw [hct]
      rfl
    · simp only [BufferOk]
      rw [← hbe]
      cases uv <;> rfl

theorem cinv_step_param {st : CachedState} {d : DirectState} (hinv : CInv st d)
    (name : String) (v : Int) (dist : Dist) :
    match cachedSetTrialParam st name v dist, directApplyWrite d (.param name v dist) with
    | .error e₁, .error e₂ => e₁ = e₂
    | .ok (st₁, _), .ok d₁ => CInv st₁ d₁
    | _, _ => False := by
  obtain ⟨hct, hcr, hbr, hrun, hbuf⟩ := hinv
  have hupd : checkUpdatable st.cachedTrial.state = .ok () := by
    rw [hrun]
    rfl
  have hupd₂ : checkUpdatable d.trial.state = .ok () := by
    rw [← hct, hrun]
    rfl
  simp only [cachedSetTrialParam, directApplyWrite, bind, Except.bind, pure, Except.pure,
    hupd, hupd₂]
  cases hreg : lookupList name st.cachedRegistry with
  | some d₀ =>
    have hreg₂ : lookupList name d.registry = some d₀ := by
      rw [← hcr]
      exact hreg
    simp only [hreg, hreg₂]
    cases hcompat : checkDistCompat d₀ dist with
    | error e =>
      simp only [hcompat]
    | ok w =>
      have hd₀ : d₀ = dist := by
        simp only [checkDistCompat] at hcompat
        split at hcompat
        · assumption
        · cases hcompat
      have hupdreg : updList name dist d.registry = d.registry :=
        updList_lookup_eq (by rw [hreg₂, hd₀])
      simp only [hcompat]
      cases hu : st.updates with
      | none =>
        rw [hu] at hbuf
        simp only [BufferOk] at hbuf
        simp only [Option.getD, flushTrial]
        refine ⟨?_, ?_, ?_, hrun, ?_⟩
        · rw [hct]
        · rw [hupdreg]
          exact hcr
        · rw [hupdreg]
          exact hbr
        · simp only [BufferOk]
          rw [hbuf]
          simp [backendUpdateTrial, mergeList, lookupList, updList, toExternalRepr]
      | some u =>
        rw [hu] at hbuf
        simp only [BufferOk] at hbuf
        obtain ⟨⟨h1, h2, h3, h4, h5, h6, h7, h8⟩, hbe⟩ := hbuf
        obtain ⟨us, uv, uiv, uua, usa, up, ud, udc, uds⟩ := u
        simp only at h1 h2 h3 h4 h5 h6 h7 h8
        subst h1 h2 h3 h4 h5 h6 h7 h8
        simp only [Option.getD, flushTrial]
        refine ⟨?_, ?_, ?_, hrun, ?_⟩
        · rw [hct]
        · rw [hupdreg]
          exact hcr
        · rw [hupdreg]
          exact hbr
        · simp only [BufferOk]
          rw [← hbe]
          cases uv <;>
            simp [backendUpdateTrial, mergeList, lookupList, updList, toExternalRepr]
  | none =>
    have hreg₂ : lookupList name d.registry = none := by
      rw [← hcr]
      exact hreg
    have hregB : lookupList name st.backendRegistry = none := by
      rw [hbr]
      exact hreg₂
    simp only [hreg, hreg₂, backendCheckAndSetParamDistribution, hregB, bind, Except.bind,
      pure, Except.pure]
    refine ⟨?_, ?_, ?_, hrun, ?_⟩
    · rw [hct]
    · rw [hcr]
    · rw [hbr]
    · cases hu : st.updates with
      | none =>
        rw [hu] at hbuf
        simp only [BufferOk] at hbuf ⊢
        rw [hbuf]
      | some u =>
        rw [hu] at hbuf
        simp only [BufferOk] at hbuf ⊢
        obtain ⟨⟨h1, h2, h3, h4, h5, h6, h7, h8⟩, hbe⟩ := hbuf
        obtain ⟨us, uv, uiv, uua, usa, up, ud, udc, uds⟩ := u
        simp only at h1 h2 h3 h4 h5 h6 h7 h8
        subst h1 h2 h3 h4 h5 h6 h7 h8
        refine ⟨⟨rfl, rfl, rfl, rfl, rfl, rfl, rfl, rfl⟩, ?_⟩
        rw [← hbe]
        cases uv <;> rfl

theorem cinv_finish {st : CachedState} {d : DirectState} (hinv : CInv st d)
    (fs : FinishState) (now : Int) :
    (cachedSetTrialState st fs.toTrialState now).map (fun p => p.1.backendTrial) =
    (directSetTrialState d fs now).map (fun d₁ => d₁.trial) := by
  obtain ⟨hct, hcr, hbr, hrun, hbuf⟩ := hinv
  have hupd : checkUpdatable st.cachedTrial.state = .ok () := by
    rw [hrun]
    rfl
  have hupd₂ : checkUpdatable d.trial.state = .ok () := by
    rw [← hct, hrun]
    rfl
  have hnw : ¬ st.cachedTrial.state = .waiting := by
    rw [hrun]
    simp
  simp only [cachedSetTrialState, directSetTrialState, bind, Except.bind, pure, Except.pure,
    hupd, hupd₂, if_neg hnw]
  rw [if_pos (fs.toTrialState_isFinished)]
  cases hu : st.updates with
  | none =>
    rw [hu] at hbuf
    simp only [BufferOk] at hbuf
    simp only [Option.getD, flushTrial, Except.map]
    rw [hbuf, hct]
    rfl
  | some u =>
    rw [hu] at hbuf
    simp only [BufferOk] at hbuf
    obtain ⟨⟨h1, h2, h3, h4, h5, h6, h7, h8⟩, hbe⟩ := hbuf
    obtain ⟨us, uv, uiv, uua, usa, up, ud, udc, uds⟩ := u
    simp only at h1 h2 h3 h4 h5 h6 h7 h8
    subst h1 h2 h3 h4 h5 h6 h7 h8
    simp only [Option.getD, flushTrial, Except.map]
    rw [← hct, ← hbe]
    cases uv <;> rfl

theorem cinv_step {st : CachedState} {d : DirectState} (hinv : CInv st d) (w : FieldWrite) :
    match cachedApplyWrite st w, directApplyWrite d w with
    | .error e₁, .error e₂ => e₁ = e₂
    | .ok (st₁, _), .ok d₁ => CInv st₁ d₁
    | _, _ => False := by
  cases w with
  | values vs => exact cinv_step_values hinv vs
  | intermediate k x => exact cinv_step_intermediate hinv k x
  | param name v dist => exact cinv_step_param hinv name v dist
  | userAttr key x => exact cinv_step_userAttr hinv key x
  | systemAttr key x => exact cinv_step_systemAttr hinv key x

theorem cinv_run : ∀ (ws : List FieldWrite) (st : CachedState) (d : DirectState),
    CInv st d →
    match cachedRunWrites st ws, directRunWrites d ws with
    | .error e₁, .error e₂ => e₁ = e₂
    | .ok st₁, .ok d₁ => CInv st₁ d₁
    | _, _ => False := by
  intro ws
  induction ws with
  | nil =>
    intro st d hinv
    exact hinv
  | cons w rest ih =>
    intro st d hinv
    have hstep := cinv_step hinv w
    simp only [cachedRunWrites, directRunWrites, bind, Except.bind]
    cases hc : cachedApplyWrite st w with
    | error e₁ =>
      rw [hc] at hstep
      cases hd : directApplyWrite d w with
      | error e₂ =>
        rw [hd] at hstep
        exact hstep
      | ok d₁ =>
        rw [hd] at hstep
        exact (hstep : False).elim
    | ok p =>
      obtain ⟨st₁, n⟩ := p
      rw [hc] at hstep
      cases hd : directApplyWrite d w with
      | error e₂ =>
        rw [hd] at hstep
        exact (hstep : False).elim
      | ok d₁ =>
        rw [hd] at hstep
        exact ih st₁ d₁ hstep

/-- C1: Flush batching is observationally transparent.  For every sequence
of field writes (values, intermediate values, params, user and system
attributes) applied through the caching wrapper to an owned RUNNING trial,
followed by a finishing set_trial_state, the record persisted in the
backend equals the record obtained by applying every write directly
against the Backend with no cache (including the raised errors). -/
theorem flush_batching_observationally_transparent (t₀ : Trial)
    (r₀ : List (String × Dist)) (ws : List FieldWrite) (fs : FinishState) (now : Int)
    (h : t₀.state = .running) :
    cachedRunScenario t₀ r₀ ws fs now = directRunScenario t₀ r₀ ws fs now := by
  have hinv : CInv
      { backendTrial := t₀, backendRegistry := r₀, cachedTrial := t₀
        cachedRegistry := r₀, updates := none }
      { trial := t₀, registry := r₀ } :=
    ⟨rfl, rfl, rfl, h, rfl⟩
  have hrun := cinv_run ws _ _ hinv
  simp only [cachedRunScenario, directRunScenario, bind, Except.bind]
  cases hc : cachedRunWrites
      { backendTrial := t₀, backendRegistry := r₀, cachedTrial := t₀
        cachedRegistry := r₀, updates := none } ws with
  | error e₁ =>
    rw [hc] at hrun
    cases hd : directRunWrites { trial := t₀, registry := r₀ } ws with
    | error e₂ =>
      rw [hd] at hrun
      have he : e₁ = e₂ := hrun
      rw [he]
    | ok d₁ =>
      rw [hd] at hrun
      exact (hrun : False).elim
  | ok st₁ =>
    rw [hc] at hrun
    cases hd : directRunWrites { trial := t₀, registry := r₀ } ws with
    | error e₂ =>
      rw [hd] at hrun
      exact (hrun : False).elim
    | ok d₁ =>
      rw [hd] at hrun
      have hfin := cinv_finish (hrun : CInv st₁ d₁) fs now
      cases hcs : cachedSetTrialState st₁ fs.toTrialState now with
      | error e =>
        cases hds : directSetTrialState d₁ fs now with
        | error e₂ =>
          rw [hcs, hds] at hfin
          simp only [Except.map, Except.error.injEq] at hfin
          simp only [hcs, hds, hfin]
        | ok dd =>
          rw [hcs, hds] at hfin
          simp [Except.map] at hfin
      | ok p =>
        cases hds : directSetTrialState d₁ fs now with
        | error e₂ =>
          rw [hcs, hds] at hfin
          simp [Except.map] at hfin
        | ok dd =>
          rw [hcs, hds] at hfin
          simp only [Except.map, Except.ok.injEq] at hfin
          simp only [hcs, hds, pure, Except.pure, Except.ok.injEq]
          exact hfin

/-- A scenario exercising all five write categories, with overwrites. -/
def c1WitnessWrites : List FieldWrite :=
  [.values [3], .userAttr "a" 1, .param "x" 7 2, .intermediate 0 9, .param "x" 8 2,
   .systemAttr "b" 4, .values [5]]

/-- Concrete instantiation of the C1 theorem. -/
theorem flush_batching_observationally_transparent_witness :
    ((freshRunningTrial 0).state = .running) ∧
    (cachedRunScenario (freshRunningTrial 0) [] c1WitnessWrites .complete 99 =
     directRunScenario (freshRunningTrial 0) [] c1WitnessWrites .complete 99) :=
  ⟨by decide, flush_batching_observationally_transparent (freshRunningTrial 0) []
     c1WitnessWrites .complete 99 (by decide)⟩

theorem lookupList_eq_none_iff {K V : Type} [DecidableEq K] (k : K) (l : List (K × V)) :
    lookupList k l = none ↔ k ∉ l.map Prod.fst := by
  induction l with
  | nil => simp [lookupList]
  | cons hd tl ih =>
    obtain ⟨k₀, v₀⟩ := hd
    by_cases hk : k = k₀
    · subst hk
      simp [lookupList]
    · simp [lookupList, hk, ih]

theorem updList_eq_append {K V : Type} [DecidableEq K] {k : K} {v : V} :
    ∀ {l : List (K × V)}, lookupList k l = none → updList k v l = l ++ [(k, v)] := by
  intro l
  induction l with
  | nil => intro h; rfl
  | cons hd tl ih =>
    intro h
    obtain ⟨k₀, v₀⟩ := hd
    by_cases hk : k = k₀
    · subst hk
      simp [lookupList] at h
    · simp only [lookupList, hk, if_false] at h
      simp [updList, hk, ih h]

theorem map_fst_updList_present {K V : Type} [DecidableEq K] {k : K} (v : V) :
    ∀ {l : List (K × V)} {w : V}, lookupList k l = some w →
    (updList k v l).map Prod.fst = l.map Prod.fst := by
  intro l
  induction l with
  | nil => intro w h; simp [lookupList] at h
  | cons hd tl ih =>
    intro w h
    obtain ⟨k₀, v₀⟩ := hd
    by_cases hk : k = k₀
    · subst hk
      simp [updList]
    · simp only [lookupList, hk, if_false] at h
      simp [updList, hk, ih h]

theorem foldUpd_lookup_other {K V : Type} [DecidableEq K] {j : K} :
    ∀ (entries : List (K × V)) (acc : List (K × V)), (∀ p ∈ entries, p.1 ≠ j) →
    lookupList j (entries.foldl (fun acc p => updList p.1 p.2 acc) acc) = lookupList j acc := by
  intro entries
  induction entries with
  | nil => intro acc _; rfl
  | cons hd tl ih =>
    intro acc hne
    simp only [List.foldl_cons]
    rw [ih _ (fun p hp => hne p (List.mem_cons_of_mem _ hp))]
    exact lookupList_updList_ne _ _ (fun hcon =>
      hne hd (List.mem_cons_self _ _) (hcon.symm))

theorem foldUpd_lookup_mem {K V : Type} [DecidableEq K] {k : K} {t : V} :
    ∀ (entries : List (K × V)) (acc : List (K × V)), (entries.map Prod.fst).Nodup →
    (k, t) ∈ entries →
    lookupList k (entries.foldl (fun acc p => updList p.1 p.2 acc) acc) = some t := by
  intro entries
  induction entries with
  | nil => intro acc _ hm; simp at hm
  | cons hd tl ih =>
    intro acc hnd hm
    obtain ⟨k₀, v₀⟩ := hd
    simp only [List.map_cons, List.nodup_cons] at hnd
    simp only [List.foldl_cons]
    rcases List.mem_cons.mp hm with h | h
    · obtain ⟨h1, h2⟩ := Prod.mk.injEq _ _ _ _ ▸ h
      subst h1
      subst h2
      rw [foldUpd_lookup_other tl _ (fun p hp hcon => hnd.1 (by
        rw [← hcon]
        exact List.mem_map.mpr ⟨p, hp, rfl⟩))]
      exact lookupList_updList_self _ _ _
    · exact ih _ hnd.2 h

/-- Characterisation of a successful Backend set_trial_state in the
wrapper model: either the claim was rejected (state unchanged), or the
trial record was replaced by one whose state is the requested one, with
every wrapper-side structure untouched. -/
theorem wBackendSetTrialState_ok_cases {w : WState} {id : Nat} {state : TrialState}
    {now : Int} {b : Bool} {w₁ : WState}
    (h : wBackendSetTrialState w id state now = .ok (b, w₁)) :
    (b = false ∧ w₁ = w) ∨
    (b = true ∧ ∃ t, lookupList id w.backendTrials = some t ∧
      ∃ t₁, t₁.state = state ∧
        w₁ = { w with backendTrials := updList id t₁ w.backendTrials }) := by
  simp only [wBackendSetTrialState, bind, Except.bind, pure, Except.pure] at h
  cases hg : lookupList id w.backendTrials with
  | none =>
    simp only [hg] at h
    simp at h
  | some t =>
    simp only [hg] at h
    cases hc : checkUpdatable t.state with
    | error e =>
      simp only [hc] at h
      simp at h
    | ok u =>
      simp only [hc] at h
      split at h
      · simp only [Except.ok.injEq, Prod.mk.injEq] at h
        exact Or.inl ⟨h.1.symm, h.2.symm⟩
      · simp only [Except.ok.injEq, Prod.mk.injEq] at h
        obtain ⟨h₁, h₂⟩ := h
        subst h₂
        refine Or.inr ⟨h₁.symm, t, rfl, _, ?_, rfl⟩
        simp [apply_ite Trial.state]

theorem wInvB_createTrial (w : WState) (st : TrialState) (now : Int)
    (hinv : wInvB w = true) : wInvB (wCreateTrial w st now) = true := by
  simp only [wInvB, Bool.and_eq_true, List.all_eq_true] at hinv
  obtain ⟨⟨⟨howned, hknown⟩, hbound⟩, hnd⟩ := hinv
  have hfreshB : lookupList w.backendCounter w.backendTrials = none := by
    rw [lookupList_eq_none_iff]
    intro hmem
    obtain ⟨p, hp, hpk⟩ := List.mem_map.mp hmem
    have := of_decide_eq_true (hbound p hp)
    omega
  have key : ∀ (T : Trial) (ownedNew : List Nat),
      (∀ j ∈ ownedNew, (j = w.backendCounter ∧ T.state ≠ .waiting) ∨ j ∈ w.owned) →
      wInvB { backendTrials := updList w.backendCounter T w.backendTrials
              backendCounter := w.backendCounter + 1
              known := w.known ++ [w.backendCounter]
              cache := updList w.backendCounter T w.cache
              owned := ownedNew } = true := by
    intro T ownedNew hsub
    simp only [wInvB, Bool.and_eq_true, List.all_eq_true]
    refine ⟨⟨⟨?_, ?_⟩, ?_⟩, ?_⟩
    · intro j hj
      rw [wOwnedOkB_iff]
      rcases hsub j hj with ⟨hji, hstw⟩ | hjo
      · subst hji
        exact ⟨T, lookupList_updList_self _ _ _, lookupList_updList_self _ _ _, hstw⟩
      · obtain ⟨t, hc, hb, hw⟩ := (wOwnedOkB_iff).mp (howned j hjo)
        have hjlt : j < w.backendCounter :=
          of_decide_eq_true (hbound _ (mem_of_lookupList hb))
        have hjne : j ≠ w.backendCounter := by omega
        refine ⟨t, ?_, ?_, hw⟩
        · show lookupList j (updList w.backendCounter T w.cache) = some t
          rw [lookupList_updList_ne _ _ hjne]
          exact hc
        · show lookupList j (updList w.backendCounter T w.backendTrials) = some t
          rw [lookupList_updList_ne _ _ hjne]
          exact hb
    · intro j hj
      simp only [decide_eq_true_eq]
      rcases hsub j hj with ⟨hji, _⟩ | hjo
      · subst hji
        exact List.mem_append_right _ (by simp)
      · exact List.mem_append_left _ (of_decide_eq_true (hknown j hjo))
    · intro p hp
      simp only [decide_eq_true_eq]
      rcases mem_updList hp with h | h
      · rw [h]
        omega
      · have := of_decide_eq_true (hbound p h)
        omega
    · rw [decide_eq_true_iff]
      rw [updList_eq_append hfreshB, List.map_append]
      rw [List.nodup_append]
      refine ⟨of_decide_eq_true hnd, by simp, ?_⟩
      intro a ha hb
      simp only [List.map_cons, List.map_nil, List.mem_singleton] at hb
      subst hb
      rw [lookupList_eq_none_iff] at hfreshB
      exact hfreshB ha
  simp only [wCreateTrial]
  split
  next hst =>
    exact key _ _ (fun j hj => by
      rcases List.mem_cons.mp hj with h | h
      · exact Or.inl ⟨h, by simpa using hst⟩
      · exact Or.inr h)
  next hst =>
    exact key _ _ (fun j hj => Or.inr hj)

theorem wInvB_setTrialState (w : WState) (id : Nat) (st : TrialState) (now : Int)
    {b : Bool} {w₁ : WState}
    (hinv : wInvB w = true) (hst : ¬ st = .waiting)
    (hcall : wSetTrialState w id st now = .ok (b, w₁)) : wInvB w₁ = true := by
  have hinv₀ := hinv
  simp only [wInvB, Bool.and_eq_true, List.all_eq_true] at hinv
  obtain ⟨⟨⟨howned, hknown⟩, hbound⟩, hnd⟩ := hinv
  simp only [wSetTrialState, bind, Except.bind, pure, Except.pure] at hcall
  cases hcached : wGetCachedTrial w id with
  | some cached =>
    simp only [hcached] at hcall
    have hmemo : id ∈ w.owned ∧ lookupList id w.cache = some cached := by
      simp only [wGetCachedTrial] at hcached
      split at hcached
      · split at hcached
        · exact ⟨by assumption, hcached⟩
        · exact absurd hcached (by simp)
      · exact absurd hcached (by simp)
    obtain ⟨hido, hidc⟩ := hmemo
    obtain ⟨t, hc, hb, hw⟩ := (wOwnedOkB_iff).mp (howned id hido)
    rw [hidc] at hc
    injection hc with hc
    subst hc
    simp only [if_neg hw] at hcall
    cases hchk : checkUpdatable cached.state with
    | error e =>
      simp only [hchk] at hcall
      simp at hcall
    | ok u =>
      simp only [hchk, hb] at hcall
      rw [Except.ok.injEq, Prod.mk.injEq] at hcall
      obtain ⟨-, hww⟩ := hcall
      subst hww
      have hbu : backendUpdateTrial cached
          { state := some st
            datetimeComplete := if st.isFinished then some now else none } =
          (if st.isFinished then
            { { cached with state := st } with datetimeComplete := some now }
          else { cached with state := st }) := by
        cases hfin : st.isFinished <;>
          simp [backendUpdateTrial, hfin, mergeList]
      simp only [wInvB, Bool.and_eq_true, List.all_eq_true]
      refine ⟨⟨⟨?_, ?_⟩, ?_⟩, ?_⟩
      · intro j hj
        rw [wOwnedOkB_iff]
        by_cases hji : j = id
        · subst hji
          refine ⟨_, lookupList_updList_self _ _ _, ?_, ?_⟩
          · show lookupList j (updList j (backendUpdateTrial cached
              { state := some st
                datetimeComplete := if st.isFinished then some now else none })
              w.backendTrials) = _
            rw [lookupList_updList_self, hbu]
          · show ¬ (if st.isFinished then
                { { cached with state := st } with datetimeComplete := some now }
              else { cached with state := st }).state = TrialState.waiting
            simpa [apply_ite Trial.state] using hst
        · obtain ⟨tj, hcj, hbj, hwj⟩ := (wOwnedOkB_iff).mp (howned j hj)
          refine ⟨tj, ?_, ?_, hwj⟩
          · show lookupList j (updList id _ w.cache) = some tj
            rw [lookupList_updList_ne _ _ hji]
            exact hcj
          · show lookupList j (updList id _ w.backendTrials) = some tj
            rw [lookupList_updList_ne _ _ hji]
            exact hbj
      · exact hknown
      · intro p hp
        rcases mem_updList hp with h | h
        · rw [h]
          simp only [decide_eq_true_eq]
          exact of_decide_eq_true (hbound _ (mem_of_lookupList hb))
        · exact hbound p h
      · rw [decide_eq_true_iff]
        rw [map_fst_updList_present _ hb]
        exact of_decide_eq_true hnd
  | none =>
    simp only [hcached] at hcall
    cases hbk : wBackendSetTrialState w id st now with
    | error e =>
      simp only [hbk] at hcall
      simp at hcall
    | ok q =>
      obtain ⟨ret, w₂⟩ := q
      simp only [hbk] at hcall
      have hidnotowned : id ∉ w.owned := by
        intro hcon
        obtain ⟨t', hc', hb', hw'⟩ := (wOwnedOkB_iff).mp (howned id hcon)
        have hk := of_decide_eq_true (hknown id hcon)
        simp [wGetCachedTrial, hk, hcon, hc'] at hcached
      rcases wBackendSetTrialState_ok_cases hbk with ⟨hret, hw₂⟩ | ⟨hret, t, hlt, t₁, ht₁, hw₂⟩
      · subst hret
        subst hw₂
        rw [if_neg (by simp)] at hcall
        rw [Except.ok.injEq, Prod.mk.injEq] at hcall
        obtain ⟨-, hww⟩ := hcall
        subst hww
        exact hinv₀
      · subst hret
        subst hw₂
        have hW2inv : wInvB { w with backendTrials := updList id t₁ w.backendTrials } = true := by
          simp only [wInvB, Bool.and_eq_true, List.all_eq_true]
          refine ⟨⟨⟨?_, ?_⟩, ?_⟩, ?_⟩
          · intro j hj
            have hjne : j ≠ id := fun hji => hidnotowned (hji ▸ hj)
            obtain ⟨tj, hcj, hbj, hwj⟩ := (wOwnedOkB_iff).mp (howned j hj)
            rw [wOwnedOkB_iff]
            refine ⟨tj, hcj, ?_, hwj⟩
            show lookupList j (updList id t₁ w.backendTrials) = some tj
            rw [lookupList_updList_ne _ _ hjne]
            exact hbj
          · exact hknown
          · intro p hp
            rcases mem_updList hp with h | h
            · rw [h]
              simp only [decide_eq_true_eq]
              exact of_decide_eq_true (hbound _ (mem_of_lookupList hlt))
            · exact hbound p h
          · rw [decide_eq_true_iff, map_fst_updList_present _ hlt]
            exact of_decide_eq_true hnd
        split at hcall
        next hcond =>
          obtain ⟨-, hrun, hknownid⟩ := hcond
          have hlook : lookupList id (updList id t₁ w.backendTrials) = some t₁ :=
            lookupList_updList_self _ _ _
          simp only [hlook] at hcall
          rw [Except.ok.injEq, Prod.mk.injEq] at hcall
          obtain ⟨-, hww⟩ := hcall
          subst hww
          simp only [wInvB, Bool.and_eq_true, List.all_eq_true]
          refine ⟨⟨⟨?_, ?_⟩, ?_⟩, ?_⟩
          · intro j hj
            rw [wOwnedOkB_iff]
            rcases List.mem_cons.mp hj with hji | hjo
            · subst hji
              refine ⟨t₁, ?_, ?_, ?_⟩
              · exact lookupList_updList_self _ _ _
              · show lookupList j (updList j t₁ w.backendTrials) = some t₁
                exact lookupList_updList_self _ _ _
              · rw [ht₁, hrun]
                simp
            · have hjne : j ≠ id := fun hji => hidnotowned (hji ▸ hjo)
              obtain ⟨tj, hcj, hbj, hwj⟩ := (wOwnedOkB_iff).mp (howned j hjo)
              refine ⟨tj, ?_, ?_, hwj⟩
              · show lookupList j (updList id t₁ w.cache) = some tj
                rw [lookupList_updList_ne _ _ hjne]
                exact hcj
              · show lookupList j (updList id t₁ w.backendTrials) = some tj
                rw [lookupList_updList_ne _ _ hjne]
                exact hbj
          · intro j hj
            simp only [decide_eq_true_eq]
            rcases List.mem_cons.mp hj with hji | hjo
            · subst hji
              exact hknownid
            · exact of_decide_eq_true (hknown j hjo)
          · intro p hp
            rcases mem_updList hp with h | h
            · rw [h]
              simp only [decide_eq_true_eq]
              exact of_decide_eq_true (hbound _ (mem_of_lookupList hlt))
            · exact hbound p h
          · rw [decide_eq_true_iff, map_fst_updList_present _ hlt]
            exact of_decide_eq_true hnd
        next hcond =>
          rw [Except.ok.injEq, Prod.mk.injEq] at hcall
          obtain ⟨-, hww⟩ := hcall
          subst hww
          exact hW2inv

theorem wInvB_readRemote (w : WState) (hinv : wInvB w = true) :
    wInvB (wReadRemote w) = true := by
  simp only [wInvB, Bool.and_eq_true, List.all_eq_true] at hinv
  obtain ⟨⟨⟨howned, hknown⟩, hbound⟩, hnd⟩ := hinv
  have hnd' := of_decide_eq_true hnd
  have hsub : (w.backendTrials.filter (fun p => ¬ p.1 ∈ w.owned)).Sublist w.backendTrials :=
    List.filter_sublist _
  have hndf : ((w.backendTrials.filter (fun p => ¬ p.1 ∈ w.owned)).map Prod.fst).Nodup :=
    hnd'.sublist (hsub.map Prod.fst)
  have hfmem : ∀ p ∈ w.backendTrials.filter (fun p => ¬ p.1 ∈ w.owned),
      p ∈ w.backendTrials ∧ p.1 ∉ w.owned := by
    intro p hp
    rw [List.mem_filter] at hp
    exact ⟨hp.1, of_decide_eq_true hp.2⟩
  simp only [wReadRemote, wInvB, Bool.and_eq_true, List.all_eq_true]
  refine ⟨⟨⟨?_, ?_⟩, ?_⟩, ?_⟩
  · intro j hj
    rw [wOwnedOkB_iff]
    rcases List.mem_append.mp hj with hjo | hjf
    · obtain ⟨tj, hcj, hbj, hwj⟩ := (wOwnedOkB_iff).mp (howned j hjo)
      refine ⟨tj, ?_, hbj, hwj⟩
      show lookupList j ((w.backendTrials.filter (fun p => ¬ p.1 ∈ w.owned)).foldl
        (fun acc p => updList p.1 p.2 acc) w.cache) = some tj
      rw [foldUpd_lookup_other _ _ (fun p hp hpj => (hfmem p hp).2 (hpj ▸ hjo))]
      exact hcj
    · obtain ⟨p, hp, hpj⟩ := List.mem_map.mp hjf
      rw [List.mem_filter] at hp
      obtain ⟨hpfetched, hpfin⟩ := hp
      obtain ⟨k, t⟩ := p
      subst hpj
      refine ⟨t, ?_, ?_, ?_⟩
      · show lookupList k ((w.backendTrials.filter (fun p => ¬ p.1 ∈ w.owned)).foldl
          (fun acc p => updList p.1 p.2 acc) w.cache) = some t
        exact foldUpd_lookup_mem _ _ hndf hpfetched
      · exact lookupList_of_mem_nodup hnd' (hfmem _ hpfetched).1
      · exact TrialState.isFinished_ne_waiting hpfin
  · intro j hj
    simp only [decide_eq_true_eq]
    rcases List.mem_append.mp hj with hjo | hjf
    · exact List.mem_append_left _ (of_decide_eq_true (hknown j hjo))
    · obtain ⟨p, hp, hpj⟩ := List.mem_map.mp hjf
      rw [List.mem_filter] at hp
      exact List.mem_append_right _ (List.mem_map.mpr ⟨p, hp.1, hpj⟩)
  · exact hbound
  · exact hnd

theorem wInvB_step (w : WState) (op : WOp) (hinv : wInvB w = true)
    (hg : wOpLegalB op = true) : wInvB (runWOp w op) = true := by
  cases op with
  | createTrial st now => exact wInvB_createTrial w st now hinv
  | setTrialState id st now =>
    simp only [wOpLegalB, decide_eq_true_eq] at hg
    simp only [runWOp]
    cases hcall : wSetTrialState w id st now with
    | error e => exact hinv
    | ok p =>
      obtain ⟨b, w₁⟩ := p
      exact wInvB_setTrialState w id st now hinv hg hcall
  | readRemote => exact wInvB_readRemote w hinv

theorem wInvB_run (w : WState) (ops : List WOp) (hinv : wInvB w = true)
    (hg : wOpsLegalB ops = true) : wInvB (runWOps w ops) = true := by
  induction ops generalizing w with
  | nil => exact hinv
  | cons op rest ih =>
    simp only [wOpsLegalB, List.all_cons, Bool.and_eq_true] at hg
    exact ih (runWOp w op) (wInvB_step w op hinv hg.1) hg.2

/-- C9: along any run of wrapper operations starting from a state
satisfying the ownership invariant, in which set_trial_state is never
asked to move a trial into WAITING, the invariant is preserved: every
owned-or-finished id keeps a cached snapshot that is not WAITING, and
get_trial on a trial whose backend record is WAITING is always answered
by the backend, never by the local cache. -/
theorem owned_snapshot_never_waiting (w : WState) (ops : List WOp)
    (hinv : wInvB w = true) (hg : wOpsLegalB ops = true) :
    wInvB (runWOps w ops) = true ∧
    (∀ id t, id ∈ (runWOps w ops).owned →
      lookupList id (runWOps w ops).cache = some t → ¬ t.state = .waiting) ∧
    (∀ id t, lookupList id (runWOps w ops).backendTrials = some t →
      t.state = .waiting → wGetTrial (runWOps w ops) id = (some t, false)) := by
  have hrun := wInvB_run w ops hinv hg
  have hrun' := hrun
  simp only [wInvB, Bool.and_eq_true, List.all_eq_true] at hrun'
  obtain ⟨⟨⟨howned, hknown⟩, hbound⟩, hnd⟩ := hrun'
  refine ⟨hrun, ?_, ?_⟩
  · intro id t hido hidc
    obtain ⟨t', hc', hb', hw'⟩ := (wOwnedOkB_iff).mp (howned id hido)
    rw [hidc] at hc'
    injection hc' with hc'
    subst hc'
    exact hw'
  · intro id t hbt hwt
    have hnone : wGetCachedTrial (runWOps w ops) id = none := by
      cases hc : wGetCachedTrial (runWOps w ops) id with
      | none => rfl
      | some ct =>
        have hmemo : id ∈ (runWOps w ops).owned ∧
            lookupList id (runWOps w ops).cache = some ct := by
          simp only [wGetCachedTrial] at hc
          split at hc
          · split at hc
            · exact ⟨by assumption, hc⟩
            · exact absurd hc (by simp)
          · exact absurd hc (by simp)
        obtain ⟨hido, hidc⟩ := hmemo
        obtain ⟨t', hc', hb', hw'⟩ := (wOwnedOkB_iff).mp (howned id hido)
        rw [hbt] at hb'
        injection hb' with hb'
        subst hb'
        exact absurd hwt hw'
    simp only [wGetTrial, hnone, hbt]

/-- The run refuting the unconditional reading of the cached-ownership
claim: a RUNNING trial is created (hence owned), then set_trial_state
puts it back into WAITING; the owned cached snapshot now shows WAITING
and get_trial serves it from the cache. -/
def c9CounterOps : List WOp :=
  [.createTrial .running 0, .setTrialState 0 .waiting 1]

/-- C9 counterexample: after creating trial 0 as RUNNING and then calling
set_trial_state(0, WAITING), id 0 is still in the owned set, its cached
snapshot has state WAITING, and get_trial(0) answers from the cache --
contradicting the claim that a WAITING trial is never answered from the
cache of owned ids. -/
theorem waiting_snapshot_served_from_cache :
    (0 ∈ (runWOps wEmpty c9CounterOps).owned) ∧
    ((lookupList 0 (runWOps wEmpty c9CounterOps).cache).map Trial.state =
      some .waiting) ∧
    ((wGetTrial (runWOps wEmpty c9CounterOps) 0).1 =
      lookupList 0 (runWOps wEmpty c9CounterOps).cache) ∧
    ((wGetTrial (runWOps wEmpty c9CounterOps) 0).2 = true) := by
  decide

/-- A concrete legal run exercising every operation: a WAITING create, a
RUNNING create, a successful WAITING-claim, a remote read, and a finish. -/
def c9WitnessOps : List WOp :=
  [.createTrial .waiting 0, .createTrial .running 0,
   .setTrialState 0 .running 1, .readRemote, .setTrialState 1 .complete 2]

theorem owned_snapshot_never_waiting_witness :
    wInvB wEmpty = true ∧ wOpsLegalB c9WitnessOps = true ∧
    wInvB (runWOps wEmpty c9WitnessOps) = true :=
  ⟨by decide, by decide,
    (owned_snapshot_never_waiting wEmpty c9WitnessOps (by decide) (by decide)).1⟩

end Optuna
